import Mathlib

/-!
Verification of the canonical encoding engine of the nostr-eth repository:
deterministic content hashing (`neth.Log.GenerateUniqueHash`, `neth.UserOp.GetHash`),
JSON canonicalization (`neth.sortedJSONBytes`), payload flattening
(`flattenDataToTags` in both the `log` and `event` packages), and the
compact NIP-19 identifier encoder (`event.EncodeEventIDToNevent`).
Go byte slices are modelled as `List Nat` (each element < 256), `big.Int`
values as `Int`/`Nat`, and Go strings as Lean `String`s.
-/

set_option maxRecDepth 4000

namespace NostrEth

/-- Structural helper for `natBytesBE`: `fuel` only bounds the recursion
depth (any `fuel ≥ n` computes the full representation). -/
def natBytesBEAux : Nat → Nat → List Nat
  | 0, _ => []
  | fuel + 1, n => if n = 0 then [] else natBytesBEAux fuel (n / 256) ++ [n % 256]

/-- Minimal big-endian byte representation of a natural number.
Models `big.Int.Bytes()`: the empty list for `0`, no leading zero bytes. -/
def natBytesBE (n : Nat) : List Nat :=
  natBytesBEAux n n

theorem natBytesBEAux_congr : ∀ f1 f2 n, n ≤ f1 → n ≤ f2 →
    natBytesBEAux f1 n = natBytesBEAux f2 n := by
  intro f1
  induction f1 with
  | zero =>
    intro f2 n h1 _
    have hn : n = 0 := by omega
    cases f2 <;> simp [natBytesBEAux, hn]
  | succ f1 ih =>
    intro f2 n h1 h2
    by_cases hn : n = 0
    · cases f2 <;> simp [natBytesBEAux, hn]
    · have hf2 : f2 ≠ 0 := by omega
      obtain ⟨f2', rfl⟩ := Nat.exists_eq_succ_of_ne_zero hf2
      simp only [natBytesBEAux, if_neg hn]
      have hd : n / 256 < n := Nat.div_lt_self (Nat.pos_of_ne_zero hn) (by omega)
      rw [ih f2' (n / 256) (by omega) (by omega)]

/-- The `k`-byte big-endian encoding of `n` (the specification-level
"fixed-width big-endian field": byte `i` holds `n / 256 ^ (k-1-i) % 256`). -/
def beBytes (k n : Nat) : List Nat :=
  (List.range k).map fun i => n / 256 ^ (k - 1 - i) % 256

/-- Models go-ethereum `common.LeftPadBytes(slice, l)`: returns `slice`
unchanged when it is already at least `l` long, otherwise prepends zero
bytes up to length `l`. -/
def leftPadBytes (slice : List Nat) (l : Nat) : List Nat :=
  if l ≤ slice.length then slice
  else List.replicate (l - slice.length) 0 ++ slice

/-- Value of a hexadecimal digit character, as accepted by Go's hex parsing
(`0-9`, `a-f`, `A-F`, compared by code point). -/
def hexDigitVal (c : Char) : Option Nat :=
  if 48 ≤ c.toNat ∧ c.toNat ≤ 57 then some (c.toNat - 48)
  else if 97 ≤ c.toNat ∧ c.toNat ≤ 102 then some (c.toNat - 97 + 10)
  else if 65 ≤ c.toNat ∧ c.toNat ≤ 70 then some (c.toNat - 65 + 10)
  else none

/-- Models `encoding/hex.Decode`'s partial behaviour as used by go-ethereum
`common.Hex2Bytes`: complete hex pairs are decoded until the first invalid
character or a trailing lone digit, which are silently dropped. -/
def hexPairsPartial : List Char → List Nat
  | c1 :: c2 :: rest =>
    match hexDigitVal c1, hexDigitVal c2 with
    | some h, some l => (16 * h + l) :: hexPairsPartial rest
    | _, _ => []
  | _ => []

/-- Models go-ethereum `common.FromHex`: strips an optional `0x`/`0X`
prefix, prepends `0` to odd-length input, then decodes hex pairs
(errors ignored, partial result kept). -/
def goFromHex (s : String) : List Nat :=
  let cs :=
    match s.data with
    | '0' :: 'x' :: rest => rest
    | '0' :: 'X' :: rest => rest
    | l => l
  let cs' := if cs.length % 2 = 1 then '0' :: cs else cs
  hexPairsPartial cs'

/-! ### Keccak-256 (legacy pre-NIST padding, as used by go-ethereum `crypto.Keccak256Hash`) -/

/-- Left-rotation of a 64-bit lane. -/
def rotl64 (x n : Nat) : Nat :=
  ((x <<< n) % 2 ^ 64) ||| (x >>> (64 - n))

/-- The 24 Keccak-f[1600] round constants. -/
def keccakRC : List Nat :=
  [0x1, 0x8082, 0x800000000000808A, 0x8000000080008000] ++
  [0x808B, 0x80000001, 0x8000000080008081, 0x8000000000008009] ++
  [0x8A, 0x88, 0x80008009, 0x8000000A] ++
  [0x8000808B, 0x800000000000008B, 0x8000000000008089, 0x8000000000008003] ++
  [0x8000000000008002, 0x8000000000000080, 0x800A, 0x800000008000000A] ++
  [0x8000000080008081, 0x8000000000008080, 0x80000001, 0x8000000080008008]

/-- Keccak rotation offsets, flat index `x + 5*y`. -/
def keccakRho : List Nat :=
  [0, 1, 62, 28, 27] ++ [36, 44, 6, 55, 20] ++ [3, 10, 43, 25, 39] ++
  [41, 45, 15, 21, 8] ++ [18, 2, 61, 56, 14]

/-- Keccak θ step on a 25-lane state (flat index `x + 5*y`). -/
def keccakTheta (st : List Nat) : List Nat :=
  let a := fun i => st.getD i 0
  let c := fun x => a x ^^^ a (x + 5) ^^^ a (x + 10) ^^^ a (x + 15) ^^^ a (x + 20)
  let d := fun x => c ((x + 4) % 5) ^^^ rotl64 (c ((x + 1) % 5)) 1
  (List.range 25).map fun i => a i ^^^ d (i % 5)

/-- Keccak ρ and π steps: destination lane `(x', y')` receives the rotated
source lane `(x, y)` with `y = x'` and `x = (x' + 3*y') mod 5`. -/
def keccakRhoPi (st : List Nat) : List Nat :=
  (List.range 25).map fun j =>
    let xp := j % 5
    let yp := j / 5
    let src := (xp + 3 * yp) % 5 + 5 * xp
    rotl64 (st.getD src 0) (keccakRho.getD src 0)

/-- Keccak χ step. -/
def keccakChi (st : List Nat) : List Nat :=
  (List.range 25).map fun j =>
    let x := j % 5
    let y := j / 5
    st.getD j 0 ^^^
      ((0xFFFFFFFFFFFFFFFF ^^^ st.getD ((x + 1) % 5 + 5 * y) 0) &&&
        st.getD ((x + 2) % 5 + 5 * y) 0)

/-- One Keccak-f round, with round constant `rc`. -/
def keccakRound (st : List Nat) (rc : Nat) : List Nat :=
  let st' := keccakChi (keccakRhoPi (keccakTheta st))
  (List.range 25).map fun i => if i = 0 then st'.getD 0 0 ^^^ rc else st'.getD i 0

/-- The Keccak-f[1600] permutation (24 rounds). -/
def keccakF (st : List Nat) : List Nat :=
  keccakRC.foldl keccakRound st

/-- Little-endian interpretation of up to 8 bytes as a 64-bit lane. -/
def leBytesToLane (bs : List Nat) : Nat :=
  bs.foldr (fun b acc => acc * 256 + b) 0

/-- Splits a list into consecutive chunks of `w` elements (the last chunk
may be shorter). -/
def chunksOf (w : Nat) (l : List α) : List (List α) :=
  match l with
  | [] => []
  | a :: as =>
    if h : w = 0 then []
    else (a :: as).take w :: chunksOf w ((a :: as).drop w)
termination_by l.length
decreasing_by
  simp only [List.length_drop, List.length_cons]
  omega

/-- Absorbs one 136-byte rate block into the sponge state and permutes. -/
def keccakAbsorb (st : List Nat) (block : List Nat) : List Nat :=
  let lanes := (List.range 17).map fun j => leBytesToLane ((block.drop (8 * j)).take 8)
  keccakF ((List.range 25).map fun i =>
    if i < 17 then st.getD i 0 ^^^ lanes.getD i 0 else st.getD i 0)

/-- Legacy Keccak multi-rate padding for rate 136: append `0x01`, zero
bytes, and a final `0x80` (merged to `0x81` when only one byte is free). -/
def keccakPad (msg : List Nat) : List Nat :=
  let r := 136 - msg.length % 136
  msg ++ (if r = 1 then [0x81] else 0x01 :: (List.replicate (r - 2) 0 ++ [0x80]))

/-- Keccak-256 of a byte sequence: 32-byte digest. -/
def keccak256 (msg : List Nat) : List Nat :=
  let st := (chunksOf 136 (keccakPad msg)).foldl keccakAbsorb (List.replicate 25 0)
  (List.range 32).map fun i => (st.getD (i / 8) 0 >>> (8 * (i % 8))) &&& 255

/-- Lowercase hexadecimal digit characters. -/
def hexCharList : List Char :=
  "0123456789abcdef".toList

/-- Lowercase hex rendering of a byte sequence. -/
def bytesToHex (bs : List Nat) : String :=
  String.mk ((bs.map fun b => [hexCharList.getD (b / 16 % 16) '0', hexCharList.getD (b % 16) '0']).flatten)

/-- Models `crypto.Keccak256Hash(data).Hex()`: `0x`-prefixed lowercase hex
of the 32-byte Keccak-256 digest. -/
def keccak256Hex (msg : List Nat) : String :=
  "0x" ++ bytesToHex (keccak256 msg)

/-! ### JSON payload trees and the canonicalizer `sortedJSONBytes` -/

/-- A parsed JSON payload tree, as produced by `json.Unmarshal` into
`map[string]interface{}` / `interface{}`.  Mappings keep their textual
field order as a list of key/value pairs.  Numbers are modelled by their
integer value (the payloads canonicalized by the repository carry
integer-valued numbers; float rendering is handled separately by the
flatteners below). -/
inductive Json where
  | str : String → Json
  | num : Int → Json
  | bool : Bool → Json
  | null : Json
  | arr : List Json → Json
  | obj : List (String × Json) → Json

/-- Escape of one character inside a JSON string literal, following Go's
`encoding/json` encoder (HTML-escaping of `<`, `>`, `&` included). -/
def jsonEscapeChar (c : Char) : List Char :=
  if c = '"' then ['\\', '"']
  else if c = '\\' then ['\\', '\\']
  else if c = '\n' then ['\\', 'n']
  else if c = '\r' then ['\\', 'r']
  else if c = '\t' then ['\\', 't']
  else if c.toNat < 0x20 ∨ c = '<' ∨ c = '>' ∨ c = '&' then
    ['\\', 'u', '0', '0', hexCharList.getD (c.toNat / 16) '0', hexCharList.getD (c.toNat % 16) '0']
  else if c.toNat = 0x2028 ∨ c.toNat = 0x2029 then
    ['\\', 'u', '2', '0', '2', hexCharList.getD (c.toNat % 16) '0']
  else [c]

/-- A JSON string literal with quotes, Go-style escaped. -/
def jsonQuote (s : String) : String :=
  String.mk ('"' :: (s.data.map jsonEscapeChar).flatten ++ ['"'])

/-- Recursively sorts every mapping of a payload tree by key.  Models the
fact that Go's `encoding/json` encoder serializes `map[string]…` values
with keys in ascending order at every level (Lean's `String` order agrees
with Go's byte-wise order, since UTF-8 preserves code-point order). -/
def sortJson : Json → Json
  | .str s => .str s
  | .num n => .num n
  | .bool b => .bool b
  | .null => .null
  | .arr items => .arr (items.attach.map fun x => sortJson x.1)
  | .obj fields =>
    .obj (List.insertionSort (fun a b => a.1 ≤ b.1)
      (fields.attach.map fun x => (x.1.1, sortJson x.1.2)))
decreasing_by
  · have h1 := List.sizeOf_lt_of_mem x.2
    simp only [Json.arr.sizeOf_spec]
    omega
  · obtain ⟨⟨k, v⟩, hx⟩ := x
    have h1 := List.sizeOf_lt_of_mem hx
    simp only [Prod.mk.sizeOf_spec] at h1
    simp only [Json.obj.sizeOf_spec]
    omega

mutual
/-- Plain structural JSON serializer (field order as given). -/
def jsonRender : Json → String
  | .str s => jsonQuote s
  | .num n => toString n
  | .bool b => if b then "true" else "false"
  | .null => "null"
  | .arr items => "[" ++ jsonRenderList items ++ "]"
  | .obj fields => "\x7b" ++ jsonRenderFields fields ++ "\x7d"

/-- Comma-separated rendering of array elements. -/
def jsonRenderList : List Json → String
  | [] => ""
  | [j] => jsonRender j
  | j :: j' :: rest => jsonRender j ++ "," ++ jsonRenderList (j' :: rest)

/-- Comma-separated rendering of object fields. -/
def jsonRenderFields : List (String × Json) → String
  | [] => ""
  | [(k, v)] => jsonQuote k ++ ":" ++ jsonRender v
  | (k, v) :: f :: rest => jsonQuote k ++ ":" ++ jsonRender v ++ "," ++ jsonRenderFields (f :: rest)
end

/-- Models `json.Marshal` of a parsed payload value: mappings are
serialized with sorted keys at every nesting level. -/
def goMarshal (j : Json) : String :=
  jsonRender (sortJson j)

/-- Models `neth.sortedJSONBytes` on a raw message that parses as a JSON
object with the given fields: collect the keys, sort them, and append the
serialized key followed by the serialized value for each key in order. -/
def sortedJSONBytes (m : List (String × Json)) : String :=
  let keys := List.insertionSort (fun a b => a ≤ b) (m.map Prod.fst)
  String.join (keys.map fun k => goMarshal (.str k) ++ goMarshal ((m.lookup k).getD .null))

/-- Models `neth.sortedJSONBytes` on an arbitrary raw message: a JSON
object is canonicalized, anything else is returned as its own serialized
bytes, unmodified. -/
def sortedJSONBytesAny : Json → String
  | .obj fields => sortedJSONBytes fields
  | .str s => goMarshal (.str s)
  | .num n => goMarshal (.num n)
  | .bool b => goMarshal (.bool b)
  | .null => goMarshal .null
  | .arr items => goMarshal (.arr items)

/-! ### The transaction log and its content hasher -/

/-- UTF-8 encoding of one character. -/
def utf8EncodeChar (c : Char) : List Nat :=
  let n := c.toNat
  if n < 0x80 then [n]
  else if n < 0x800 then [0xC0 ||| (n >>> 6), 0x80 ||| (n &&& 0x3F)]
  else if n < 0x10000 then
    [0xE0 ||| (n >>> 12), 0x80 ||| ((n >>> 6) &&& 0x3F), 0x80 ||| (n &&& 0x3F)]
  else
    [0xF0 ||| (n >>> 18), 0x80 ||| ((n >>> 12) &&& 0x3F),
     0x80 ||| ((n >>> 6) &&& 0x3F), 0x80 ||| (n &&& 0x3F)]

/-- UTF-8 bytes of a string (models Go's `[]byte(s)`). -/
def strBytes (s : String) : List Nat :=
  (s.data.map utf8EncodeChar).flatten

/-- The fields of `neth.Log` read by `GenerateUniqueHash` (`Value` is the
`big.Int` amount, `Data` the optional raw JSON payload; the remaining
struct fields do not take part in the hash). -/
structure Log where
  txHash : String
  chainID : String
  value : Int
  data : Option Json

/-- The byte contribution of the optional payload inside
`Log.GenerateUniqueHash`: the canonicalized bytes when present, nothing
when `nil`. -/
def Log.payloadBytes (t : Log) : List Nat :=
  match t.data with
  | some d => strBytes (sortedJSONBytesAny d)
  | none => []

/-- The exact byte buffer hashed by `neth.Log.GenerateUniqueHash`:
`LeftPadBytes(Value.Bytes(), 32)`, the canonicalized payload (if any),
then `FromHex(TxHash)` and `FromHex(ChainID)`. -/
def Log.generateUniqueHashInput (t : Log) : List Nat :=
  leftPadBytes (natBytesBE t.value.natAbs) 32 ++ t.payloadBytes
    ++ goFromHex t.txHash ++ goFromHex t.chainID

/-- Models `neth.Log.GenerateUniqueHash`: the Keccak-256 hash of the
buffer above, rendered as a `0x`-prefixed hex string. -/
def Log.generateUniqueHash (t : Log) : String :=
  keccak256Hex t.generateUniqueHashInput

/-! ### The user operation and its identifier hash -/

/-- Model of `neth.UserOp` (byte slices as `List Nat`, `big.Int` as `Int`,
the 20-byte `common.Address` as its byte list). -/
structure UserOp where
  sender : List Nat
  nonce : Int
  initCode : List Nat
  callData : List Nat
  callGasLimit : Int
  verificationGasLimit : Int
  preVerificationGas : Int
  maxFeePerGas : Int
  maxPriorityFeePerGas : Int
  paymasterAndData : List Nat
  signature : List Nat

/-- Models `big.Int.FillBytes` on a fresh 32-byte buffer: the value's
minimal big-endian bytes right-aligned in 32 zero bytes, or `none` for the
panic when the value does not fit. -/
def fillBytes32 (n : Nat) : Option (List Nat) :=
  if (natBytesBE n).length ≤ 32 then
    some (List.replicate (32 - (natBytesBE n).length) 0 ++ natBytesBE n)
  else none

/-- Go `copy(dst[off:], src)` semantics on list models. -/
def copyAt (dst : List α) (off : Nat) (src : List α) : List α :=
  dst.take off ++ src.take (dst.length - off) ++ dst.drop (off + src.length)

/-- Models `neth.UserOp.GetHash`: pack `chainID`, the sender address
copied at offset 12 of a 32-byte buffer, and `Nonce`, each as 32-byte
fields, and Keccak-256 the 96-byte result (`none` models the `FillBytes`
panic on oversized values). -/
def UserOp.getHash (u : UserOp) (chainID : Int) : Option String := do
  let cid ← fillBytes32 chainID.natAbs
  let senderPadded := copyAt (List.replicate 32 0) 12 u.sender
  let non ← fillBytes32 u.nonce.natAbs
  some (keccak256Hex (cid ++ senderPadded ++ non))

/-! ### The tag flatteners -/

/-- A dynamically-typed Go value (`interface{}`) as dispatched by the
flatteners: string, `int64`, `float64`, `bool`, nested
`map[string]interface{}` (as a key/value list in iteration order),
`[]interface{}`, or anything else (`nil`/unrecognized).  A `float64` is
modelled by its exact rational value. -/
inductive GoVal where
  | str : String → GoVal
  | int : Int → GoVal
  | float : ℚ → GoVal
  | bool : Bool → GoVal
  | map : List (String × GoVal) → GoVal
  | arr : List GoVal → GoVal
  | null : GoVal

/-- Hex digit in the three ranges checked by `isEthereumAddress`. -/
def isHexDigitChar (c : Char) : Bool :=
  if ('0' ≤ c ∧ c ≤ '9') ∨ ('a' ≤ c ∧ c ≤ 'f') ∨ ('A' ≤ c ∧ c ≤ 'F') then true else false

/-- Models `isEthereumAddress` (identical in both packages): byte length
exactly 42, leading `0x`, and only hex characters afterwards. -/
def isEthereumAddress (value : String) : Bool :=
  if value.utf8ByteSize ≠ 42 then false
  else
    match value.data with
    | '0' :: 'x' :: rest => rest.all isHexDigitChar
    | _ => false

/-- Truncation of a rational toward zero; models Go's `int64(f)`
conversion for in-range values. -/
def ratTrunc (q : ℚ) : Int :=
  q.num.tdiv (q.den : Int)

/-- Models `fmt.Sprintf("%f", f)`: fixed 6-decimal rendering.  The scaled
value `n` is the magnitude in millionths rounded half-up, written in pure
numerator/denominator arithmetic (`n = ⌊|q|*10^6 + 1/2⌋`); the rounding of
values that need more than 6 fractional digits approximates Go's
round-to-nearest, and is exact on values with at most 6 fractional decimal
digits. -/
def goFormatF (q : ℚ) : String :=
  let sign := if q.num < 0 then "-" else ""
  let n : Nat := (2 * q.num.natAbs * 1000000 + q.den) / (2 * q.den)
  let fps := toString (n % 1000000)
  sign ++ toString (n / 1000000) ++ "." ++ String.mk (List.replicate (6 - fps.length) '0') ++ fps

/-- Models `fmt.Sprintf("%v", item)` for the non-string slice elements of
the `log` package flattener.  The composite cases (`map`, slice) and the
shortest-float rendering are not modelled precisely; no verified property
below depends on them. -/
def goFormatV : GoVal → String
  | .str s => s
  | .int n => toString n
  | .float q => if (ratTrunc q : ℚ) = q then toString (ratTrunc q) else goFormatF q
  | .bool b => if b then "true" else "false"
  | .map _ => "map[]"
  | .arr _ => "[]"
  | .null => "<nil>"

mutual
/-- Models `flattenDataToTags` of `pkg/eth/log.go` (the variant with
nested-map recursion and slice joining), iterating the pairs in the given
order. -/
def logFlattenDataToTags : List (String × GoVal) → List (List String)
  | [] => []
  | (key, v) :: rest => logPairTags key v ++ logFlattenDataToTags rest

/-- The tags emitted by one key/value pair of the `log` package
flattener. -/
def logPairTags (key : String) : GoVal → List (List String)
  | .str s =>
    if isEthereumAddress s then [["p", s]]
    else if key = "topic" then [[key, s]]
    else [[key, s]]
  | .int n => [[key, toString n]]
  | .float q => [[key, goFormatF q]]
  | .bool b => [[key, if b then "true" else "false"]]
  | .map mv =>
    (logFlattenDataToTags mv).filterMap fun t =>
      match t with
      | t0 :: t1 :: _ => some [key ++ "_" ++ t0, t1]
      | _ => none
  | .arr items =>
    let strValues := items.map fun item =>
      match item with
      | .str s => s
      | other => goFormatV other
    if strValues.length > 0 then [[key, String.intercalate "," strValues]] else []
  | .null => []
end

/-- The tags emitted by one key/value pair of the `event` package
flattener (`part_004`): strings, `int64`, `float64` (with the
integral-value check), and `bool` only; other types are skipped. -/
def eventPairTags (key : String) : GoVal → List (List String)
  | .str s =>
    if isEthereumAddress s then [["p", s]]
    else if key = "topic" then [[key, s]]
    else [[key, s]]
  | .int n => [[key, toString n]]
  | .float q =>
    if (ratTrunc q : ℚ) = q then [[key, toString (ratTrunc q)]]
    else [[key, goFormatF q]]
  | .bool b => [[key, if b then "true" else "false"]]
  | _ => []

/-- Models `flattenDataToTags` of the `event` package on an
already-parsed payload. -/
def eventFlattenDataToTags : List (String × GoVal) → List (List String)
  | [] => []
  | (key, v) :: rest => eventPairTags key v ++ eventFlattenDataToTags rest

/-! ### Claims about the flatteners -/

/-- C3: a string value matching the address pattern flattens to a
`("p", value)` tag whatever its key (including `"topic"`); a
non-address string under the key `"topic"` flattens to
`("topic", value)` with the value unchanged. -/
theorem logFlatten_address_topic (k v : String) :
    (isEthereumAddress v = true → logPairTags k (GoVal.str v) = [["p", v]])
    ∧ (isEthereumAddress v = false → logPairTags "topic" (GoVal.str v) = [["topic", v]]) := by
  constructor <;> intro h <;> simp [logPairTags, h]

theorem logFlatten_address_topic_witness :
    (isEthereumAddress "0x742d35Cc6634C0532925a3b8D4C9db96C4b4d8b6" = true
      ∧ logPairTags "topic" (GoVal.str "0x742d35Cc6634C0532925a3b8D4C9db96C4b4d8b6")
          = [["p", "0x742d35Cc6634C0532925a3b8D4C9db96C4b4d8b6"]])
    ∧ (isEthereumAddress "0xddf252ad1be2c89b69c2b068fc378daa952ba7f163c4a11628f55a4df523b3ef" = false
      ∧ logPairTags "topic"
            (GoVal.str "0xddf252ad1be2c89b69c2b068fc378daa952ba7f163c4a11628f55a4df523b3ef")
          = [["topic", "0xddf252ad1be2c89b69c2b068fc378daa952ba7f163c4a11628f55a4df523b3ef"]]) :=
  ⟨⟨by decide, (logFlatten_address_topic "topic" _).1 (by decide)⟩,
   ⟨by decide, (logFlatten_address_topic "topic" _).2 (by decide)⟩⟩

/-- C6: in the `event` package flattener, the integer `18` flattens to
`"18"`, the float `18.0` (integral value) flattens to `"18"`, and the
float `18.5` flattens to the fixed 6-decimal `"18.500000"`. -/
theorem eventFlatten_number_formats (key : String) :
    eventPairTags key (GoVal.int 18) = [[key, "18"]]
    ∧ eventPairTags key (GoVal.float 18) = [[key, "18"]]
    ∧ eventPairTags key (GoVal.float (mkRat 37 2)) = [[key, "18.500000"]] := by
  have h1 : toString (18 : Int) = "18" := by decide
  have h2 : (ratTrunc 18 : ℚ) = 18 := by decide
  have h3 : toString (ratTrunc 18) = "18" := by decide
  have h4 : ¬((ratTrunc (mkRat 37 2) : ℚ) = mkRat 37 2) := by decide
  have h5 : goFormatF (mkRat 37 2) = "18.500000" := by decide
  refine ⟨?_, ?_, ?_⟩ <;> simp [eventPairTags, h1, h2, h3, h4, h5]

/-- C7: the `log` package flattener recursively flattens a nested
mapping, re-emitting every nested tag under the rewritten name
`key ++ "_" ++ nestedName` with its value unchanged; in particular a
`meta.symbol = "TEST"` nesting yields the `("meta_symbol", "TEST")`
tag. -/
theorem logFlatten_nested_map :
    (∀ (key : String) (mv : List (String × GoVal)) (t0 t1 : String) (rest : List String),
      (t0 :: t1 :: rest) ∈ logFlattenDataToTags mv →
      [key ++ "_" ++ t0, t1] ∈ logPairTags key (GoVal.map mv))
    ∧ logFlattenDataToTags [("meta", GoVal.map [("symbol", GoVal.str "TEST")])]
        = [["meta_symbol", "TEST"]] := by
  constructor
  · intro key mv t0 t1 rest hmem
    simp only [logPairTags]
    exact List.mem_filterMap.mpr ⟨t0 :: t1 :: rest, hmem, rfl⟩
  · have haddr : isEthereumAddress "TEST" = false := by decide
    simp [logFlattenDataToTags, logPairTags, haddr]

theorem logFlatten_nested_map_witness :
    (["symbol", "TEST"] ∈ logFlattenDataToTags [("symbol", GoVal.str "TEST")])
    ∧ ["meta" ++ "_" ++ "symbol", "TEST"]
        ∈ logPairTags "meta" (GoVal.map [("symbol", GoVal.str "TEST")]) := by
  have haddr : isEthereumAddress "TEST" = false := by decide
  have hmem : (["symbol", "TEST"] : List String)
      ∈ logFlattenDataToTags [("symbol", GoVal.str "TEST")] := by
    simp [logFlattenDataToTags, logPairTags, haddr]
  exact ⟨hmem, logFlatten_nested_map.1 "meta" _ "symbol" "TEST" [] hmem⟩

/-! ### Big-endian encoding lemmas -/

theorem natBytesBE_zero : natBytesBE 0 = [] := rfl

theorem natBytesBE_succ (n : Nat) (h : n ≠ 0) :
    natBytesBE n = natBytesBE (n / 256) ++ [n % 256] := by
  obtain ⟨m, rfl⟩ := Nat.exists_eq_succ_of_ne_zero h
  show natBytesBEAux (m + 1) (m + 1) = _
  simp only [natBytesBEAux, if_neg h]
  have hd : (m + 1) / 256 ≤ m := by
    have hlt : (m + 1) / 256 < m + 1 := Nat.div_lt_self (Nat.succ_pos m) (by omega)
    omega
  rw [natBytesBEAux_congr m ((m + 1) / 256) ((m + 1) / 256) hd (le_refl _)]
  rfl

theorem beBytes_zero (k : Nat) : beBytes k 0 = List.replicate k 0 := by
  refine List.eq_replicate_iff.mpr ⟨by simp [beBytes], ?_⟩
  intro b hb
  simp only [beBytes, List.mem_map] at hb
  obtain ⟨i, _, rfl⟩ := hb
  simp

theorem beBytes_succ (k n : Nat) : beBytes (k + 1) n = beBytes k (n / 256) ++ [n % 256] := by
  unfold beBytes
  rw [List.range_succ, List.map_append]
  congr 1
  · apply List.map_congr_left
    intro i hi
    have hik : i < k := List.mem_range.mp hi
    have hp : (256 : Nat) ^ (k + 1 - 1 - i) = 256 * 256 ^ (k - 1 - i) := by
      rw [← Nat.pow_succ']
      congr 1
      omega
    rw [Nat.div_div_eq_div_mul, ← hp]
  · simp

theorem natBytesBE_length_le (k : Nat) : ∀ n, n < 256 ^ k → (natBytesBE n).length ≤ k := by
  induction k with
  | zero =>
    intro n h
    have hn : n = 0 := by simpa using h
    simp [hn, natBytesBE_zero]
  | succ k ih =>
    intro n h
    by_cases h0 : n = 0
    · simp [h0, natBytesBE_zero]
    · rw [natBytesBE_succ n h0]
      have hdiv : n / 256 < 256 ^ k :=
        (Nat.div_lt_iff_lt_mul (by omega)).mpr (by rw [← Nat.pow_succ]; exact h)
      have := ih (n / 256) hdiv
      simp only [List.length_append, List.length_singleton]
      omega

theorem lt_pow_natBytesBE_length (n : Nat) : n < 256 ^ (natBytesBE n).length := by
  induction n using Nat.strong_induction_on with
  | _ n ih =>
    by_cases h0 : n = 0
    · simp [h0, natBytesBE_zero]
    · rw [natBytesBE_succ n h0]
      have hd := ih (n / 256) (Nat.div_lt_self (Nat.pos_of_ne_zero h0) (by omega))
      have hmod := Nat.div_add_mod n 256
      have hm : n % 256 < 256 := Nat.mod_lt _ (by omega)
      simp only [List.length_append, List.length_singleton, Nat.pow_succ]
      omega

theorem replicate_append_natBytesBE : ∀ (k n : Nat), n < 256 ^ k →
    List.replicate (k - (natBytesBE n).length) 0 ++ natBytesBE n = beBytes k n := by
  intro k
  induction k with
  | zero =>
    intro n h
    have hn : n = 0 := by simpa using h
    simp [hn, natBytesBE_zero, beBytes]
  | succ k ih =>
    intro n h
    by_cases h0 : n = 0
    · simp [h0, natBytesBE_zero, beBytes_zero]
    · have hdiv : n / 256 < 256 ^ k :=
        (Nat.div_lt_iff_lt_mul (by omega)).mpr (by rw [← Nat.pow_succ]; exact h)
      rw [natBytesBE_succ n h0, beBytes_succ, ← ih (n / 256) hdiv]
      have harith : k + 1 - ((natBytesBE (n / 256)).length + 1)
          = k - (natBytesBE (n / 256)).length := by omega
      simp only [List.length_append, List.length_singleton, harith, List.append_assoc]

theorem leftPadBytes_natBytesBE_32 (n : Nat) (h : n < 256 ^ 32) :
    leftPadBytes (natBytesBE n) 32 = beBytes 32 n := by
  have hle := natBytesBE_length_le 32 n h
  have hrep := replicate_append_natBytesBE 32 n h
  unfold leftPadBytes
  split
  · next hcase =>
    have hlen : (natBytesBE n).length = 32 := le_antisymm hle hcase
    rwa [hlen, Nat.sub_self, List.replicate_zero, List.nil_append] at hrep
  · exact hrep

theorem leftPadBytes_natBytesBE_big (n : Nat) (h : 256 ^ 32 ≤ n) :
    leftPadBytes (natBytesBE n) 32 = natBytesBE n := by
  have h2 := lt_pow_natBytesBE_length n
  have hge : 32 ≤ (natBytesBE n).length := by
    by_contra hc
    push_neg at hc
    have : (256 : Nat) ^ (natBytesBE n).length ≤ 256 ^ 32 :=
      Nat.pow_le_pow_right (by omega) (by omega)
    omega
  unfold leftPadBytes
  rw [if_pos hge]

theorem fillBytes32_eq (n : Nat) (h : n < 256 ^ 32) :
    fillBytes32 n = some (beBytes 32 n) := by
  unfold fillBytes32
  rw [if_pos (natBytesBE_length_le 32 n h), replicate_append_natBytesBE 32 n h]

/-! ### Claims about the content hasher -/

/-- C4 (counterexample): for an amount of 33 bytes (`2^256`), the content
hasher does not fail; the amount field is written as its raw 33-byte value
and a digest is still produced, contradicting the claim that an
`EncodingError` is raised when the magnitude exceeds 32 bytes. -/
theorem generateUniqueHash_oversize_counterexample :
    Log.generateUniqueHashInput { txHash := "", chainID := "", value := 2 ^ 256, data := none }
        = 1 :: List.replicate 32 0
    ∧ Log.generateUniqueHash { txHash := "", chainID := "", value := 2 ^ 256, data := none }
        = keccak256Hex (1 :: List.replicate 32 0) := by
  have h1 : Log.generateUniqueHashInput { txHash := "", chainID := "", value := 2 ^ 256, data := none }
      = 1 :: List.replicate 32 0 := by decide
  exact ⟨h1, congrArg keccak256Hex h1⟩

/-- C4 (amended): the content hasher never fails.  An amount whose
magnitude fits in 32 bytes is encoded as the 32-byte big-endian
left-zero-padded value; a larger amount is written through as its full
unpadded big-endian bytes. -/
theorem generateUniqueHash_amount_encoding (t : Log) :
    (t.value.natAbs < 256 ^ 32 →
      t.generateUniqueHashInput
        = beBytes 32 t.value.natAbs ++ t.payloadBytes
            ++ goFromHex t.txHash ++ goFromHex t.chainID)
    ∧ (256 ^ 32 ≤ t.value.natAbs →
      t.generateUniqueHashInput
        = natBytesBE t.value.natAbs ++ t.payloadBytes
            ++ goFromHex t.txHash ++ goFromHex t.chainID) := by
  constructor <;> intro h <;> unfold Log.generateUniqueHashInput
  · rw [leftPadBytes_natBytesBE_32 _ h]
  · rw [leftPadBytes_natBytesBE_big _ h]

theorem generateUniqueHash_amount_encoding_witness :
    (5 : Int).natAbs < 256 ^ 32
    ∧ Log.generateUniqueHashInput { txHash := "", chainID := "", value := 5, data := none }
        = beBytes 32 (5 : Int).natAbs
            ++ Log.payloadBytes { txHash := "", chainID := "", value := 5, data := none }
            ++ goFromHex "" ++ goFromHex "" :=
  ⟨by decide, (generateUniqueHash_amount_encoding _).1 (by decide)⟩

/-- C8: with amount `0`, absent payload and empty reference strings, the
content hasher returns exactly the Keccak-256 hash of 32 zero bytes. -/
theorem generateUniqueHash_zero_vector :
    Log.generateUniqueHash { txHash := "", chainID := "", value := 0, data := none }
      = keccak256Hex (List.replicate 32 0) := by
  have h1 : Log.generateUniqueHashInput { txHash := "", chainID := "", value := 0, data := none }
      = List.replicate 32 0 := by decide
  exact congrArg keccak256Hex h1

/-- C9: for a chain id and nonce fitting in 32 bytes and a 20-byte sender,
the operation hash is the Keccak-256 of the 96-byte concatenation of the
32-byte big-endian chain id, the sender left-padded with 12 zero bytes,
and the 32-byte big-endian nonce. -/
theorem userOp_getHash_packing (u : UserOp) (c : Int)
    (hc : c.natAbs < 256 ^ 32) (hn : u.nonce.natAbs < 256 ^ 32)
    (hs : u.sender.length = 20) :
    u.getHash c = some (keccak256Hex
      (beBytes 32 c.natAbs ++ (List.replicate 12 0 ++ u.sender)
        ++ beBytes 32 u.nonce.natAbs)) := by
  have hcopy : copyAt (List.replicate 32 0) 12 u.sender = List.replicate 12 0 ++ u.sender := by
    unfold copyAt
    rw [List.length_replicate]
    have h1 : (List.replicate 32 (0 : Nat)).take 12 = List.replicate 12 0 := by decide
    have h2 : u.sender.take (32 - 12) = u.sender := List.take_of_length_le (by omega)
    have h3 : (List.replicate 32 (0 : Nat)).drop (12 + u.sender.length) = [] := by
      rw [hs]; decide
    rw [h1, h2, h3, List.append_nil]
  unfold UserOp.getHash
  rw [fillBytes32_eq _ hc, fillBytes32_eq _ hn, hcopy]
  rfl

/-! ### Claims about the canonicalizer -/

theorem perm_lookup_eq {α β : Type} [BEq α] [LawfulBEq α] {l₁ l₂ : List (α × β)}
    (p : l₁.Perm l₂) : (l₁.map Prod.fst).Nodup → ∀ k, l₁.lookup k = l₂.lookup k := by
  induction p with
  | nil => intro _ _; rfl
  | cons a p ih =>
    intro nd k
    obtain ⟨a1, a2⟩ := a
    simp only [List.map_cons, List.nodup_cons] at nd
    rw [List.lookup_cons, List.lookup_cons]
    cases h : k == a1 <;> simp only []
    exact ih nd.2 k
  | swap x y l =>
    intro nd k
    obtain ⟨x1, x2⟩ := x
    obtain ⟨y1, y2⟩ := y
    simp only [List.map_cons, List.nodup_cons, List.mem_cons] at nd
    rw [List.lookup_cons, List.lookup_cons, List.lookup_cons, List.lookup_cons]
    cases h1 : k == x1 <;> cases h2 : k == y1 <;> simp only []
    exact absurd (Or.inl (eq_of_beq h2 ▸ eq_of_beq h1)) nd.1
  | trans p₁ p₂ ih₁ ih₂ =>
    intro nd k
    rw [ih₁ nd k]
    exact ih₂ ((p₁.map Prod.fst).nodup_iff.mp nd) k

/-- C1: `sortedJSONBytes` is invariant under permutation of the mapping's
key insertion order — two insertion orders of the same key/value pairs
yield identical canonical output (determinism across repeated calls is
definitional, the canonicalizer being a pure function). -/
theorem sortedJSONBytes_perm_invariant (m₁ m₂ : List (String × Json))
    (hperm : m₁.Perm m₂) (hnodup : (m₁.map Prod.fst).Nodup) :
    sortedJSONBytes m₁ = sortedJSONBytes m₂ := by
  unfold sortedJSONBytes
  have hkeys : List.insertionSort (fun a b => a ≤ b) (m₁.map Prod.fst)
      = List.insertionSort (fun a b => a ≤ b) (m₂.map Prod.fst) := by
    have hp : (List.insertionSort (fun a b => a ≤ b) (m₁.map Prod.fst)).Perm
        (List.insertionSort (fun a b => a ≤ b) (m₂.map Prod.fst)) :=
      ((List.perm_insertionSort _ _).trans (hperm.map Prod.fst)).trans
        (List.perm_insertionSort _ _).symm
    exact List.eq_of_perm_of_sorted hp
      (List.sorted_insertionSort _ _) (List.sorted_insertionSort _ _)
  rw [hkeys]
  refine congrArg String.join (List.map_congr_left ?_)
  intro k _
  rw [perm_lookup_eq hperm hnodup k]

theorem sortedJSONBytes_perm_invariant_witness :
    ([("b", Json.num 1), ("a", Json.str "x")].Perm [("a", Json.str "x"), ("b", Json.num 1)])
    ∧ (([("b", Json.num 1), ("a", Json.str "x")].map Prod.fst).Nodup)
    ∧ sortedJSONBytes [("b", Json.num 1), ("a", Json.str "x")]
        = sortedJSONBytes [("a", Json.str "x"), ("b", Json.num 1)] :=
  ⟨List.Perm.swap _ _ _, by decide,
    sortedJSONBytes_perm_invariant _ _ (List.Perm.swap _ _ _) (by decide)⟩

theorem userOp_getHash_packing_witness :
    (1 : Int).natAbs < 256 ^ 32 ∧ (0 : Int).natAbs < 256 ^ 32
    ∧ (List.replicate 20 (7 : Nat)).length = 20
    ∧ UserOp.getHash
        { sender := List.replicate 20 7, nonce := 0, initCode := [], callData := [],
          callGasLimit := 0, verificationGasLimit := 0, preVerificationGas := 0,
          maxFeePerGas := 0, maxPriorityFeePerGas := 0, paymasterAndData := [],
          signature := [] } 1
        = some (keccak256Hex
            (beBytes 32 (1 : Int).natAbs ++ (List.replicate 12 0 ++ List.replicate 20 7)
              ++ beBytes 32 (0 : Int).natAbs)) :=
  ⟨by decide, by decide, by decide,
    userOp_getHash_packing _ _ (by decide) (by decide) (by decide)⟩

/-! ### Bit-stream regrouping (the 8-bit to 5-bit base-32 transform) -/

/-- The `w` bits of `n`, most significant first. -/
def natToBits (w n : Nat) : List Bool :=
  (List.range w).map fun i => n.testBit (w - 1 - i)

/-- Value of a most-significant-first bit string. -/
def bitsToNat (bs : List Bool) : Nat :=
  bs.foldl (fun a b => 2 * a + (if b then 1 else 0)) 0

/-- The concatenated bit-stream of a byte sequence. -/
def bytesToBits (data : List Nat) : List Bool :=
  (data.map (natToBits 8)).flatten

/-- Models `bech32.ConvertBits(data, 8, 5, true)` from btcsuite/btcutil:
the bit-stream of the input bytes regrouped into 5-bit groups, with the
final group padded with trailing zero bits. -/
def convertBits8to5 (data : List Nat) : List Nat :=
  (chunksOf 5 (bytesToBits data)).map fun c => bitsToNat (c ++ List.replicate (5 - c.length) false)

/-- Only the complete chunks of `w` elements (a trailing short group is
dropped). -/
def fullChunksOf (w : Nat) (l : List α) : List (List α) :=
  match l with
  | [] => []
  | a :: as =>
    if h : w = 0 ∨ (a :: as).length < w then []
    else (a :: as).take w :: fullChunksOf w ((a :: as).drop w)
termination_by l.length
decreasing_by
  simp only [List.length_drop, List.length_cons]
  omega

/-- Modelled from the spec: the repository has no decoder, and §4.4
describes decoding as unpacking the 5-bit groups back to 8-bit bytes (the
trailing zero padding bits are discarded). -/
def regroup5to8 (vals : List Nat) : List Nat :=
  (fullChunksOf 8 ((vals.map (natToBits 5)).flatten)).map bitsToNat

theorem bitsToNat_foldl (bs : List Bool) : ∀ (a : Nat),
    bs.foldl (fun a b => 2 * a + (if b then 1 else 0)) a = a * 2 ^ bs.length + bitsToNat bs := by
  induction bs with
  | nil => intro a; simp [bitsToNat]
  | cons b bs ih =>
    intro a
    show List.foldl _ (2 * a + _) bs = _
    rw [ih]
    have hb : bitsToNat (b :: bs) = (if b then 1 else 0) * 2 ^ bs.length + bitsToNat bs := by
      show List.foldl _ (2 * 0 + _) bs = _
      rw [ih]
      simp
    rw [hb]
    simp only [List.length_cons, Nat.pow_succ]
    ring

theorem bitsToNat_lt (bs : List Bool) : bitsToNat bs < 2 ^ bs.length := by
  induction bs with
  | nil => simp [bitsToNat]
  | cons b bs ih =>
    have : bitsToNat (b :: bs) = (if b then 1 else 0) * 2 ^ bs.length + bitsToNat bs := by
      show List.foldl _ (2 * 0 + _) bs = _
      rw [bitsToNat_foldl]
      simp
    rw [this]
    simp only [List.length_cons, Nat.pow_succ]
    cases b <;> simp <;> omega

theorem bitsToNat_cons (b : Bool) (bs : List Bool) :
    bitsToNat (b :: bs) = (if b then 1 else 0) * 2 ^ bs.length + bitsToNat bs := by
  show List.foldl _ (2 * 0 + _) bs = _
  rw [bitsToNat_foldl]
  simp

theorem natToBits_length (w n : Nat) : (natToBits w n).length = w := by
  simp [natToBits]

theorem natToBits_succ (w n : Nat) :
    natToBits (w + 1) n = n.testBit w :: natToBits w n := by
  unfold natToBits
  rw [List.range_succ_eq_map]
  simp only [List.map_cons, List.map_map]
  congr 1
  apply List.map_congr_left
  intro i _
  simp only [Function.comp_apply]
  congr 1
  omega

theorem natToBits_mod (w n : Nat) : natToBits w (n % 2 ^ w) = natToBits w n := by
  unfold natToBits
  apply List.map_congr_left
  intro i hi
  have hi' : i < w := List.mem_range.mp hi
  rw [Nat.testBit_mod_two_pow]
  have hlt : w - 1 - i < w := by omega
  simp [hlt]

theorem bitsToNat_natToBits (w : Nat) : ∀ n, n < 2 ^ w → bitsToNat (natToBits w n) = n := by
  induction w with
  | zero =>
    intro n h
    have : n = 0 := by simpa using h
    simp [this, natToBits, bitsToNat]
  | succ w ih =>
    intro n h
    rw [natToBits_succ, bitsToNat_cons, natToBits_length, ← natToBits_mod,
      ih (n % 2 ^ w) (Nat.mod_lt _ (Nat.two_pow_pos w))]
    rw [Nat.testBit_to_div_mod]
    have hdm : 2 ^ w * (n / 2 ^ w) + n % 2 ^ w = n := Nat.div_add_mod n (2 ^ w)
    have hmlt : n % 2 ^ w < 2 ^ w := Nat.mod_lt _ (Nat.two_pow_pos w)
    have hdiv : n / 2 ^ w < 2 := by
      rw [Nat.div_lt_iff_lt_mul (Nat.two_pow_pos w)]
      rw [Nat.pow_succ] at h
      omega
    revert hdm hmlt hdiv
    generalize n / 2 ^ w = d
    generalize n % 2 ^ w = m
    generalize 2 ^ w = P
    intro hdm hmlt hdiv
    have h01 : d = 0 ∨ d = 1 := by omega
    rcases h01 with rfl | rfl <;> simp <;> omega

theorem natToBits_bitsToNat : ∀ bs : List Bool, natToBits bs.length (bitsToNat bs) = bs := by
  intro bs
  induction bs with
  | nil => simp [natToBits, bitsToNat]
  | cons b bs ih =>
    rw [List.length_cons, natToBits_succ, bitsToNat_cons]
    have hB := bitsToNat_lt bs
    have hmod : ((if b then 1 else 0) * 2 ^ bs.length + bitsToNat bs) % 2 ^ bs.length
        = bitsToNat bs := by
      rw [Nat.mul_comm, Nat.mul_add_mod, Nat.mod_eq_of_lt hB]
    have hdiv : ((if b then 1 else 0) * 2 ^ bs.length + bitsToNat bs) / 2 ^ bs.length
        = (if b then 1 else 0) := by
      rw [Nat.mul_comm, Nat.mul_add_div (Nat.two_pow_pos _), Nat.div_eq_of_lt hB]
      omega
    congr 1
    · rw [Nat.testBit_to_div_mod, hdiv]
      cases b <;> simp
    · rw [← natToBits_mod, hmod, ih]

theorem bytesToBits_cons (b : Nat) (rest : List Nat) :
    bytesToBits (b :: rest) = natToBits 8 b ++ bytesToBits rest := by
  simp [bytesToBits]

theorem bytesToBits_length (data : List Nat) :
    (bytesToBits data).length = 8 * data.length := by
  induction data with
  | nil => rfl
  | cons b rest ih =>
    rw [bytesToBits_cons, List.length_append, natToBits_length, ih, List.length_cons]
    omega

theorem chunksOf_cons (w : Nat) (hw : w ≠ 0) (a : α) (as : List α) :
    chunksOf w (a :: as) = (a :: as).take w :: chunksOf w ((a :: as).drop w) := by
  rw [chunksOf]
  exact dif_neg hw

theorem chunksOf_length_le (w : Nat) (hw : w ≠ 0) (l : List α) :
    ∀ c ∈ chunksOf w l, c.length ≤ w := by
  suffices H : ∀ n (l : List α), l.length ≤ n → ∀ c ∈ chunksOf w l, c.length ≤ w from
    H l.length l (le_refl _)
  intro n
  induction n with
  | zero =>
    intro l hl
    have : l = [] := List.eq_nil_of_length_eq_zero (by omega)
    simp [this, chunksOf]
  | succ n ih =>
    intro l hl
    cases l with
    | nil => simp [chunksOf]
    | cons a as =>
      rw [chunksOf_cons w hw]
      intro c hc
      rcases List.mem_cons.mp hc with rfl | hmem
      · simp only [List.length_take]
        omega
      · refine ih ((a :: as).drop w) ?_ c hmem
        simp only [List.length_drop, List.length_cons]
        simp only [List.length_cons] at hl
        omega

theorem chunksOf_padded_flatten (w : Nat) (hw : w ≠ 0) (l : List Bool) :
    ((chunksOf w l).map fun c => c ++ List.replicate (w - c.length) false).flatten
      = l ++ List.replicate ((w - l.length % w) % w) false := by
  suffices H : ∀ n (l : List Bool), l.length ≤ n →
      ((chunksOf w l).map fun c => c ++ List.replicate (w - c.length) false).flatten
        = l ++ List.replicate ((w - l.length % w) % w) false from
    H l.length l (le_refl _)
  intro n
  induction n with
  | zero =>
    intro l hl
    have : l = [] := List.eq_nil_of_length_eq_zero (by omega)
    subst this
    simp [chunksOf, Nat.mod_self]
  | succ n ih =>
    intro l hl
    cases l with
    | nil => simp [chunksOf, Nat.mod_self]
    | cons a as =>
      rw [chunksOf_cons w hw, List.map_cons, List.flatten_cons]
      by_cases hlen : w ≤ (a :: as).length
      · have ht : ((a :: as).take w).length = w := by
          simp only [List.length_take]
          omega
        have hd : ((a :: as).drop w).length = (a :: as).length - w := by
          simp [List.length_drop]
        rw [ih ((a :: as).drop w) (by simp only [List.length_cons] at hl ⊢; rw [hd]; simp only [List.length_cons]; omega)]
        have hmod : (a :: as).length % w = ((a :: as).drop w).length % w := by
          rw [hd, Nat.mod_eq_sub_mod hlen]
        rw [ht, Nat.sub_self, List.replicate_zero, List.append_nil, ← List.append_assoc,
          List.take_append_drop, hmod]
      · push_neg at hlen
        have ht : (a :: as).take w = a :: as := List.take_of_length_le (by omega)
        have hd : (a :: as).drop w = [] := List.drop_eq_nil_of_le (by omega)
        have hm1 : (a :: as).length % w = (a :: as).length := Nat.mod_eq_of_lt hlen
        have hm2 : (w - (a :: as).length) % w = w - (a :: as).length := by
          apply Nat.mod_eq_of_lt
          simp only [List.length_cons]
          omega
        rw [ht, hd, hm1, hm2]
        simp [chunksOf]

theorem fullChunksOf_short (w : Nat) (l : List α) (h : l.length < w) :
    fullChunksOf w l = [] := by
  cases l with
  | nil => simp only [fullChunksOf]
  | cons a as =>
    rw [fullChunksOf]
    rw [dif_pos (Or.inr h)]

theorem convertBits8to5_lt (data : List Nat) : ∀ v ∈ convertBits8to5 data, v < 32 := by
  intro v hv
  unfold convertBits8to5 at hv
  rcases List.mem_map.mp hv with ⟨c, hc, rfl⟩
  have hlen := chunksOf_length_le 5 (by omega) _ c hc
  have hbound := bitsToNat_lt (c ++ List.replicate (5 - c.length) false)
  have hl : (c ++ List.replicate (5 - c.length) false).length = 5 := by
    simp only [List.length_append, List.length_replicate]
    omega
  rw [hl] at hbound
  exact hbound

theorem fullChunksOf_append (w : Nat) (hw : w ≠ 0) (c l : List α) (hc : c.length = w) :
    fullChunksOf w (c ++ l) = c :: fullChunksOf w l := by
  cases c with
  | nil => simp at hc; omega
  | cons a as =>
    simp only [List.cons_append]
    rw [fullChunksOf]
    have hlen : ¬(w = 0 ∨ (a :: (as ++ l)).length < w) := by
      simp only [List.length_cons, List.length_append]
      simp only [List.length_cons] at hc
      omega
    rw [dif_neg hlen]
    have h1 : (a :: (as ++ l)).take w = a :: as := by
      rw [← List.cons_append, List.take_left' hc]
    have h2 : (a :: (as ++ l)).drop w = l := by
      rw [← List.cons_append, List.drop_left' hc]
    rw [h1, h2]

theorem fullChunksOf_bytes (junk : List Bool) (hj : junk.length < 8) :
    ∀ (bs : List Nat), (∀ b ∈ bs, b < 256) →
    fullChunksOf 8 (bytesToBits bs ++ junk) = bs.map (natToBits 8) := by
  intro bs
  induction bs with
  | nil =>
    intro _
    simpa [bytesToBits] using fullChunksOf_short 8 junk hj
  | cons b rest ih =>
    intro hb
    rw [bytesToBits_cons, List.append_assoc,
      fullChunksOf_append 8 (by omega) _ _ (natToBits_length 8 b),
      ih (fun x hx => hb x (List.mem_cons_of_mem _ hx)), List.map_cons]

/-- Round trip of the base-32 bit regrouping: converting a byte sequence
to 5-bit groups with zero padding and unpacking the groups back to bytes
recovers the original bytes. -/
theorem convertBits_roundtrip (data : List Nat) (h : ∀ b ∈ data, b < 256) :
    regroup5to8 (convertBits8to5 data) = data := by
  unfold regroup5to8 convertBits8to5
  rw [List.map_map]
  have hmap : ((chunksOf 5 (bytesToBits data)).map
      (natToBits 5 ∘ fun c => bitsToNat (c ++ List.replicate (5 - c.length) false)))
      = (chunksOf 5 (bytesToBits data)).map (fun c => c ++ List.replicate (5 - c.length) false) := by
    apply List.map_congr_left
    intro c hc
    have hlen := chunksOf_length_le 5 (by omega) _ c hc
    have hl : (c ++ List.replicate (5 - c.length) false).length = 5 := by
      simp only [List.length_append, List.length_replicate]
      omega
    have hrt := natToBits_bitsToNat (c ++ List.replicate (5 - c.length) false)
    rw [hl] at hrt
    exact hrt
  rw [hmap, chunksOf_padded_flatten 5 (by omega)]
  have hjl : (List.replicate ((5 - (bytesToBits data).length % 5) % 5) false).length < 8 := by
    rw [List.length_replicate]
    have : (5 - (bytesToBits data).length % 5) % 5 < 5 := Nat.mod_lt _ (by omega)
    omega
  rw [fullChunksOf_bytes _ hjl data h, List.map_map]
  have hpt : ∀ b ∈ data, (bitsToNat ∘ natToBits 8) b = id b := fun b hb =>
    bitsToNat_natToBits 8 b (h b hb)
  rw [List.map_congr_left hpt, List.map_id]

/-! ### The bech32 encoding (btcsuite/btcutil bech32, as called by the encoder) -/

/-- The bech32 character set `qpzry9x8gf2tvdw0s3jn54khce6mua7l`. -/
def bech32Charset : List Char :=
  ['q', 'p', 'z', 'r', 'y', '9', 'x', '8', 'g', 'f', '2', 't', 'v', 'd', 'w', '0',
   's', '3', 'j', 'n', '5', '4', 'k', 'h', 'c', 'e', '6', 'm', 'u', 'a', '7', 'l']

/-- One step of the bech32 polymod checksum fold. -/
def bech32PolymodStep (chk v : Nat) : Nat :=
  let b := chk >>> 25
  (((chk &&& 0x1ffffff) <<< 5) ^^^ v)
    ^^^ (if b.testBit 0 then 0x3b6a57b2 else 0)
    ^^^ (if b.testBit 1 then 0x26508e6d else 0)
    ^^^ (if b.testBit 2 then 0x1ea119fa else 0)
    ^^^ (if b.testBit 3 then 0x3d4233dd else 0)
    ^^^ (if b.testBit 4 then 0x2a1462b3 else 0)

/-- The bech32 polymod value of a 5-bit value sequence. -/
def bech32Polymod (values : List Nat) : Nat :=
  values.foldl bech32PolymodStep 1

/-- The bech32 expansion of a human-readable part's bytes. -/
def bech32HrpExpand (hrp : List Nat) : List Nat :=
  hrp.map (· >>> 5) ++ [0] ++ hrp.map (· &&& 31)

/-- The 6-value bech32 checksum of the data for the given HRP. -/
def bech32Checksum (hrp : List Nat) (data : List Nat) : List Nat :=
  let p := bech32Polymod (bech32HrpExpand hrp ++ data ++ [0, 0, 0, 0, 0, 0]) ^^^ 1
  [(p >>> 25) &&& 31, (p >>> 20) &&& 31, (p >>> 15) &&& 31,
   (p >>> 10) &&& 31, (p >>> 5) &&& 31, p &&& 31]

/-- Models btcutil `toChars`: maps 5-bit values to charset characters,
failing on any value outside the charset. -/
def bech32ToChars (data : List Nat) : Option (List Char) :=
  if data.all (· < 32) then some (data.map fun v => bech32Charset.getD v 'q') else none

/-- Models btcutil `bech32.Encode`: append the checksum, render through
the charset, and prepend the HRP and the `1` separator. -/
def bech32Encode (hrp : String) (data : List Nat) : Option String :=
  match bech32ToChars (data ++ bech32Checksum (strBytes hrp) data) with
  | some chars => some (hrp ++ "1" ++ String.mk chars)
  | none => none

/-! ### Correctness of the bech32 checksum -/

theorem xor_shiftLeft_distrib (a b k : Nat) :
    (a ^^^ b) <<< k = (a <<< k) ^^^ (b <<< k) := by
  apply Nat.eq_of_testBit_eq
  intro i
  simp only [Nat.testBit_shiftLeft, Nat.testBit_xor]
  cases decide (i ≥ k) <;> simp

theorem xor_shiftRight_distrib (a b k : Nat) :
    (a ^^^ b) >>> k = (a >>> k) ^^^ (b >>> k) := by
  apply Nat.eq_of_testBit_eq
  intro i
  simp [Nat.testBit_shiftRight, Nat.testBit_xor]

theorem cond_xor (p q : Bool) (C : Nat) :
    (if p ^^ q then C else 0) = (if p then C else 0) ^^^ (if q then C else 0) := by
  cases p <;> cases q <;> simp

theorem nat_xor_left_comm (a b c : Nat) : a ^^^ (b ^^^ c) = b ^^^ (a ^^^ c) := by
  rw [← Nat.xor_assoc, Nat.xor_comm a b, Nat.xor_assoc]

set_option maxHeartbeats 1000000 in
theorem bech32PolymodStep_linear (a b v w : Nat) :
    bech32PolymodStep (a ^^^ b) (v ^^^ w)
      = bech32PolymodStep a v ^^^ bech32PolymodStep b w := by
  unfold bech32PolymodStep
  simp only [Nat.and_xor_distrib_right, xor_shiftLeft_distrib, xor_shiftRight_distrib,
    Nat.testBit_xor, cond_xor]
  simp only [Nat.xor_assoc]
  simp only [Nat.xor_comm, nat_xor_left_comm]
  simp only [Nat.xor_assoc]

theorem bech32PolymodStep_zero_left (v : Nat) : bech32PolymodStep 0 v = v := by
  unfold bech32PolymodStep
  simp

theorem bech32PolymodStep_lt (chk v : Nat) (hv : v < 2 ^ 30) :
    bech32PolymodStep chk v < 2 ^ 30 := by
  unfold bech32PolymodStep
  have h1 : (chk &&& 0x1ffffff) <<< 5 < 2 ^ 30 := by
    have hand : chk &&& 0x1ffffff < 2 ^ 25 :=
      Nat.and_lt_two_pow chk (by norm_num)
    rw [Nat.shiftLeft_eq]
    calc (chk &&& 0x1ffffff) * 2 ^ 5 < 2 ^ 25 * 2 ^ 5 :=
        Nat.mul_lt_mul_of_lt_of_le hand (le_refl _) (by norm_num)
      _ = 2 ^ 30 := by norm_num
  have hcond : ∀ (p : Bool) (C : Nat), C < 2 ^ 30 → (if p then C else 0) < 2 ^ 30 := by
    intro p C hC
    cases p
    · simp only [if_false, Bool.false_eq_true]
      exact Nat.two_pow_pos 30
    · simpa using hC
  refine Nat.xor_lt_two_pow (Nat.xor_lt_two_pow (Nat.xor_lt_two_pow (Nat.xor_lt_two_pow
    (Nat.xor_lt_two_pow (Nat.xor_lt_two_pow h1 hv) ?_) ?_) ?_) ?_) ?_
  · exact hcond _ _ (by norm_num)
  · exact hcond _ _ (by norm_num)
  · exact hcond _ _ (by norm_num)
  · exact hcond _ _ (by norm_num)
  · exact hcond _ _ (by norm_num)

theorem bech32Polymod_fold_lt : ∀ (vs : List Nat) (chk : Nat), chk < 2 ^ 30 →
    (∀ v ∈ vs, v < 2 ^ 30) → List.foldl bech32PolymodStep chk vs < 2 ^ 30 := by
  intro vs
  induction vs with
  | nil => intro chk hc _; simpa using hc
  | cons v vs ih =>
    intro chk _ hv
    rw [List.foldl_cons]
    exact ih _ (bech32PolymodStep_lt chk v (hv v (List.mem_cons_self _ _)))
      (fun x hx => hv x (List.mem_cons_of_mem _ hx))

theorem bech32PolymodStep_small (x v : Nat) (hx : x < 2 ^ 25) :
    bech32PolymodStep x v = (x <<< 5) ^^^ v := by
  unfold bech32PolymodStep
  have h1 : x &&& 0x1ffffff = x := by
    have := Nat.and_pow_two_sub_one_of_lt_two_pow (n := 25) hx
    norm_num at this ⊢
    exact this
  have h2 : x >>> 25 = 0 := by
    rw [Nat.shiftRight_eq_div_pow]
    exact Nat.div_eq_of_lt hx
  simp [h1, h2]

theorem shiftLeft5_xor_eq (a b : Nat) (hb : b < 32) : (a <<< 5) ^^^ b = 32 * a + b := by
  have hxor_or : (2 ^ 5 * a) ^^^ b = (2 ^ 5 * a) ||| b := by
    apply Nat.eq_of_testBit_eq
    intro j
    simp only [Nat.testBit_xor, Nat.testBit_or, Nat.testBit_mul_pow_two]
    by_cases hj : j < 5
    · have hge : ¬(j ≥ 5) := by omega
      simp [hge]
    · have h32 : (32 : Nat) ≤ 2 ^ j := by
        calc (32 : Nat) = 2 ^ 5 := by norm_num
          _ ≤ 2 ^ j := Nat.pow_le_pow_right (by omega) (by omega)
      have hbj : b.testBit j = false :=
        Nat.testBit_lt_two_pow (lt_of_lt_of_le hb h32)
      simp [hbj]
  rw [Nat.shiftLeft_eq, Nat.mul_comm, hxor_or, ← Nat.mul_add_lt_is_or hb]

theorem shiftRight_reassemble (p m : Nat) :
    ((p >>> (m + 5)) <<< 5) ^^^ ((p >>> m) &&& 31) = p >>> m := by
  have h31 : (p >>> m) &&& 31 = (p >>> m) % 32 := by
    have h := Nat.and_pow_two_sub_one_eq_mod (p >>> m) 5
    norm_num at h
    exact h
  have hs : p >>> (m + 5) = (p >>> m) >>> 5 := by
    rw [Nat.shiftRight_add]
  have h5 : (p >>> m) >>> 5 = (p >>> m) / 32 := by
    rw [Nat.shiftRight_eq_div_pow]
  rw [h31, hs, h5, shiftLeft5_xor_eq _ _ (Nat.mod_lt _ (by omega)), Nat.div_add_mod]

theorem shiftRight_lt_of_lt (p k e : Nat) (hp : p < 2 ^ (k + e)) : p >>> k < 2 ^ e := by
  rw [Nat.shiftRight_eq_div_pow, Nat.div_lt_iff_lt_mul (Nat.two_pow_pos k), ← Nat.pow_add]
  rwa [Nat.add_comm k e] at hp

theorem and31_of_lt (a : Nat) (h : a < 32) : a &&& 31 = a := by
  have h' := Nat.and_pow_two_sub_one_of_lt_two_pow (n := 5) (show a < 2 ^ 5 by omega)
  norm_num at h'
  exact h'

theorem foldl_step_chunks (p : Nat) (hp : p < 2 ^ 30) :
    List.foldl bech32PolymodStep 0
      [(p >>> 25) &&& 31, (p >>> 20) &&& 31, (p >>> 15) &&& 31,
       (p >>> 10) &&& 31, (p >>> 5) &&& 31, p &&& 31] = p := by
  have b25 : p >>> 25 < 2 ^ 5 := shiftRight_lt_of_lt p 25 5 (by norm_num at hp ⊢; omega)
  have b20 : p >>> 20 < 2 ^ 10 := shiftRight_lt_of_lt p 20 10 (by norm_num at hp ⊢; omega)
  have b15 : p >>> 15 < 2 ^ 15 := shiftRight_lt_of_lt p 15 15 (by norm_num at hp ⊢; omega)
  have b10 : p >>> 10 < 2 ^ 20 := shiftRight_lt_of_lt p 10 20 (by norm_num at hp ⊢; omega)
  have b5 : p >>> 5 < 2 ^ 25 := shiftRight_lt_of_lt p 5 25 (by norm_num at hp ⊢; omega)
  have hc0 : (p >>> 25) &&& 31 = p >>> 25 := and31_of_lt _ (by norm_num at b25 ⊢; omega)
  have r20 : ((p >>> 25) <<< 5) ^^^ ((p >>> 20) &&& 31) = p >>> 20 := by
    have h := shiftRight_reassemble p 20
    norm_num at h ⊢
    exact h
  have r15 : ((p >>> 20) <<< 5) ^^^ ((p >>> 15) &&& 31) = p >>> 15 := by
    have h := shiftRight_reassemble p 15
    norm_num at h ⊢
    exact h
  have r10 : ((p >>> 15) <<< 5) ^^^ ((p >>> 10) &&& 31) = p >>> 10 := by
    have h := shiftRight_reassemble p 10
    norm_num at h ⊢
    exact h
  have r5 : ((p >>> 10) <<< 5) ^^^ ((p >>> 5) &&& 31) = p >>> 5 := by
    have h := shiftRight_reassemble p 5
    norm_num at h ⊢
    exact h
  have r0 : ((p >>> 5) <<< 5) ^^^ (p &&& 31) = p := by
    have h := shiftRight_reassemble p 0
    norm_num at h ⊢
    exact h
  simp only [List.foldl_cons, List.foldl_nil]
  rw [bech32PolymodStep_zero_left, hc0,
    bech32PolymodStep_small _ _ (lt_trans b25 (by norm_num)), r20,
    bech32PolymodStep_small _ _ (lt_trans b20 (by norm_num)), r15,
    bech32PolymodStep_small _ _ (lt_trans b15 (by norm_num)), r10,
    bech32PolymodStep_small _ _ (lt_trans b10 (by norm_num)), r5,
    bech32PolymodStep_small _ _ b5, r0]

theorem foldl_step_linear : ∀ (vs ws : List Nat) (a b : Nat), vs.length = ws.length →
    List.foldl bech32PolymodStep (a ^^^ b) (List.zipWith (· ^^^ ·) vs ws)
      = List.foldl bech32PolymodStep a vs ^^^ List.foldl bech32PolymodStep b ws := by
  intro vs
  induction vs with
  | nil =>
    intro ws a b h
    have : ws = [] := List.eq_nil_of_length_eq_zero (by simpa using h.symm)
    subst this
    simp
  | cons v vs ih =>
    intro ws a b h
    cases ws with
    | nil => simp at h
    | cons w ws =>
      simp only [List.zipWith_cons_cons, List.foldl_cons]
      rw [bech32PolymodStep_linear]
      exact ih ws _ _ (by simpa using h)

/-- The bech32 checksum appended by `bech32Encode` passes the polymod
verification performed on decode. -/
theorem bech32_checksum_verify (hrp data : List Nat)
    (hh : ∀ v ∈ bech32HrpExpand hrp, v < 2 ^ 30) (hd : ∀ v ∈ data, v < 2 ^ 30) :
    bech32Polymod (bech32HrpExpand hrp ++ (data ++ bech32Checksum hrp data)) = 1 := by
  have hr_q : bech32Polymod (bech32HrpExpand hrp ++ data ++ [0, 0, 0, 0, 0, 0])
      = List.foldl bech32PolymodStep
          (List.foldl bech32PolymodStep 1 (bech32HrpExpand hrp ++ data))
          [0, 0, 0, 0, 0, 0] := by
    unfold bech32Polymod
    rw [List.foldl_append]
  set r := List.foldl bech32PolymodStep 1 (bech32HrpExpand hrp ++ data) with hr
  set q := bech32Polymod (bech32HrpExpand hrp ++ data ++ [0, 0, 0, 0, 0, 0]) with hqdef
  have hq : q < 2 ^ 30 := by
    rw [hqdef]
    unfold bech32Polymod
    apply bech32Polymod_fold_lt _ _ (by norm_num)
    intro v hv
    rcases List.mem_append.mp hv with hv1 | hv2
    · rcases List.mem_append.mp hv1 with h1 | h2
      · exact hh v h1
      · exact hd v h2
    · have hv0 : v = 0 := by simpa using hv2
      rw [hv0]
      norm_num
  set p := q ^^^ 1 with hpdef
  have hp : p < 2 ^ 30 := Nat.xor_lt_two_pow hq (by norm_num)
  have hgoal : bech32Polymod (bech32HrpExpand hrp ++ (data ++ bech32Checksum hrp data))
      = List.foldl bech32PolymodStep r (bech32Checksum hrp data) := by
    unfold bech32Polymod
    rw [← List.append_assoc, List.foldl_append]
  rw [hgoal]
  have hcs : bech32Checksum hrp data
      = [(p >>> 25) &&& 31, (p >>> 20) &&& 31, (p >>> 15) &&& 31,
         (p >>> 10) &&& 31, (p >>> 5) &&& 31, p &&& 31] := by
    unfold bech32Checksum
    rw [← hqdef, ← hpdef]
  rw [hcs]
  have hlin := foldl_step_linear [0, 0, 0, 0, 0, 0]
    [(p >>> 25) &&& 31, (p >>> 20) &&& 31, (p >>> 15) &&& 31,
     (p >>> 10) &&& 31, (p >>> 5) &&& 31, p &&& 31] r 0 (by simp)
  rw [Nat.xor_zero] at hlin
  have hzip : List.zipWith (· ^^^ ·) ([0, 0, 0, 0, 0, 0] : List Nat)
      [(p >>> 25) &&& 31, (p >>> 20) &&& 31, (p >>> 15) &&& 31,
       (p >>> 10) &&& 31, (p >>> 5) &&& 31, p &&& 31]
      = [(p >>> 25) &&& 31, (p >>> 20) &&& 31, (p >>> 15) &&& 31,
         (p >>> 10) &&& 31, (p >>> 5) &&& 31, p &&& 31] := by
    simp
  rw [hzip] at hlin
  rw [hlin, foldl_step_chunks p hp, ← hr_q, hpdef,
    ← Nat.xor_assoc, Nat.xor_self, Nat.zero_xor]

/-! ### The compact identifier encoder `EncodeEventIDToNevent` -/

/-- Strict hex-pair parsing: every pair of characters must be valid hex
digits, a trailing lone character fails (models the per-pair
`strconv.ParseUint(hex[i:i+2], 16, 8)` loop). -/
def hexPairsStrict : List Char → Option (List Nat)
  | [] => some []
  | c1 :: c2 :: rest =>
    match hexDigitVal c1, hexDigitVal c2, hexPairsStrict rest with
    | some h, some l, some bs => some ((16 * h + l) :: bs)
    | _, _, _ => none
  | [_] => none

/-- Models `hexToBytes` of the `event` package: rejects odd-length
strings, then decodes hex pairs strictly. -/
def hexToBytes (hex : String) : Option (List Nat) :=
  if hex.length % 2 ≠ 0 then none else hexPairsStrict hex.data

/-- The TLV byte string built by `EncodeEventIDToNevent`, in the fixed
field order 0 (event id), 1 (relay, if non-empty), 2 (author, if
non-empty), 3 (kind as 4-byte big-endian, if positive); each length byte
is Go's `byte(len(value))`, the relay URL string is modelled by its UTF-8
byte sequence `relayBytes`. -/
def neventTLV (eventID : String) (relayBytes : List Nat) (authorPubkey : String)
    (kind : Int) : Option (List Nat) :=
  match hexToBytes eventID with
  | none => none
  | some eventIDBytes =>
    let f0 := [0, eventIDBytes.length % 256] ++ eventIDBytes
    let f1 := if relayBytes ≠ [] then [1, relayBytes.length % 256] ++ relayBytes else []
    match (if authorPubkey ≠ "" then
        (hexToBytes authorPubkey).map (fun ab => [2, ab.length % 256] ++ ab)
      else some []) with
    | none => none
    | some f2 =>
      let kindBytes := beBytes 4 ((kind % (2 ^ 32 : Int)).toNat)
      let f3 := if kind > 0 then [3, kindBytes.length % 256] ++ kindBytes else []
      some (f0 ++ f1 ++ f2 ++ f3)

/-- Models `event.EncodeEventIDToNevent`: build the TLV fields, regroup
their bytes into 5-bit groups, and bech32-encode under the `nevent`
human-readable prefix. -/
def encodeEventIDToNevent (eventID : String) (relayBytes : List Nat) (authorPubkey : String)
    (kind : Int) : Option String :=
  match neventTLV eventID relayBytes authorPubkey kind with
  | none => none
  | some tlv => bech32Encode "nevent" (convertBits8to5 tlv)

/-! ### The compact identifier decoder (spec-modelled) -/

/-- Big-endian byte-sequence value. -/
def beBytesToNat (bs : List Nat) : Nat :=
  bs.foldl (fun a b => 256 * a + b) 0

/-- Modelled from the spec: inverse charset lookup used by decoding
(case-sensitive on the lowercase bech32 alphabet the encoder emits). -/
def bech32CharVal (c : Char) : Option Nat :=
  bech32Charset.findIdx? (· == c)

/-- The decoded fields of a compact identifier: mandatory 32-byte-field 0
(event id) and the optional relay endpoint, author reference and category
code. -/
structure NeventFields where
  eventID : Option (List Nat)
  relay : Option (List Nat)
  author : Option (List Nat)
  kind : Option Nat

/-- Modelled from the spec: TLV parsing for decode — read
`[type][length][value]` fields in sequence, failing on a truncated field
or an unknown field type (`MalformedRecordError`). -/
def parseTLV : List Nat → NeventFields → Option NeventFields
  | [], acc => some acc
  | [_], _ => none
  | t :: l :: rest, acc =>
    if rest.length < l then none
    else
      let v := rest.take l
      let rest' := rest.drop l
      if t = 0 then parseTLV rest' { acc with eventID := some v }
      else if t = 1 then parseTLV rest' { acc with relay := some v }
      else if t = 2 then parseTLV rest' { acc with author := some v }
      else if t = 3 then parseTLV rest' { acc with kind := some (beBytesToNat v) }
      else none
termination_by bs _ => bs.length
decreasing_by
  all_goals simp only [List.length_drop, List.length_cons]
  all_goals omega

/-- Modelled from the spec: the repository contains no `nevent` decoder;
§4.4 describes it as the structural inverse of the encoder — validate the
prefix and the bech32 checksum, unpack the 5-bit groups back to bytes,
and parse the TLV sequence (the identity field 0 is mandatory). -/
def decodeNevent (s : String) : Option NeventFields :=
  match s.data with
  | 'n' :: 'e' :: 'v' :: 'e' :: 'n' :: 't' :: '1' :: dataChars =>
    match dataChars.mapM bech32CharVal with
    | none => none
    | some vals =>
      if vals.length < 6 then none
      else if bech32Polymod (bech32HrpExpand (strBytes "nevent") ++ vals) ≠ 1 then none
      else
        match parseTLV (regroup5to8 (vals.take (vals.length - 6))) ⟨none, none, none, none⟩ with
        | none => none
        | some fields => if fields.eventID.isSome then some fields else none
  | _ => none

/-! ### Supporting lemmas for the codec claims -/

theorem hexDigitVal_lt (c : Char) (v : Nat) (h : hexDigitVal c = some v) : v < 16 := by
  unfold hexDigitVal at h
  split at h
  · simp only [Option.some.injEq] at h
    omega
  · split at h
    · simp only [Option.some.injEq] at h
      omega
    · split at h
      · simp only [Option.some.injEq] at h
        omega
      · exact absurd h (by simp)

theorem hexPairsStrict_sound : ∀ (n : Nat) (cs : List Char), cs.length ≤ n →
    ∀ bs, hexPairsStrict cs = some bs →
    (∀ b ∈ bs, b < 256) ∧ bs.length = cs.length / 2 := by
  intro n
  induction n with
  | zero =>
    intro cs hl bs h
    have : cs = [] := List.eq_nil_of_length_eq_zero (by omega)
    subst this
    simp only [hexPairsStrict, Option.some.injEq] at h
    subst h
    simp
  | succ n ih =>
    intro cs hl bs h
    match cs with
    | [] =>
      simp only [hexPairsStrict, Option.some.injEq] at h
      subst h
      simp
    | [c] => simp [hexPairsStrict] at h
    | c1 :: c2 :: rest =>
      simp only [hexPairsStrict] at h
      split at h
      case _ hv1 hv2 hrest =>
        rename_i hd ld bsd
        simp only [Option.some.injEq] at h
        subst h
        have hih := ih rest (by simp at hl; omega) bsd hrest
        constructor
        · intro b hb
          rcases List.mem_cons.mp hb with rfl | hmem
          · have := hexDigitVal_lt c1 hd hv1
            have := hexDigitVal_lt c2 ld hv2
            omega
          · exact hih.1 b hmem
        · simp only [List.length_cons, hih.2]
          omega
      case _ => exact absurd h (by simp)

theorem hexToBytes_sound (s : String) (bs : List Nat) (h : hexToBytes s = some bs) :
    (∀ b ∈ bs, b < 256) ∧ bs.length = s.length / 2 := by
  unfold hexToBytes at h
  split at h
  · exact absurd h (by simp)
  · exact hexPairsStrict_sound s.data.length s.data (le_refl _) bs h

theorem beBytes_all_lt (k n : Nat) : ∀ b ∈ beBytes k n, b < 256 := by
  intro b hb
  rcases List.mem_map.mp hb with ⟨i, _, rfl⟩
  exact Nat.mod_lt _ (by omega)

theorem beBytes_length (k n : Nat) : (beBytes k n).length = k := by
  simp [beBytes]

theorem beBytesToNat_beBytes (k : Nat) : ∀ n, n < 256 ^ k →
    beBytesToNat (beBytes k n) = n := by
  induction k with
  | zero =>
    intro n h
    have : n = 0 := by simpa using h
    subst this
    rfl
  | succ k ih =>
    intro n h
    have hdiv : n / 256 < 256 ^ k :=
      (Nat.div_lt_iff_lt_mul (by omega)).mpr (by rw [← Nat.pow_succ]; exact h)
    rw [beBytes_succ]
    unfold beBytesToNat
    rw [List.foldl_append]
    have hpre : List.foldl (fun a b => 256 * a + b) 0 (beBytes k (n / 256)) = n / 256 :=
      ih (n / 256) hdiv
    rw [hpre]
    simp only [List.foldl_cons, List.foldl_nil]
    omega

theorem and31_lt (x : Nat) : x &&& 31 < 32 := by
  have h := Nat.and_lt_two_pow x (show (31 : Nat) < 2 ^ 5 by norm_num)
  norm_num at h
  exact h

theorem bech32Checksum_all_lt (hrp data : List Nat) :
    ∀ v ∈ bech32Checksum hrp data, v < 32 := by
  intro v hv
  unfold bech32Checksum at hv
  simp only [List.mem_cons, List.not_mem_nil, or_false] at hv
  rcases hv with rfl | rfl | rfl | rfl | rfl | rfl <;> exact and31_lt _

theorem bech32Checksum_length (hrp data : List Nat) :
    (bech32Checksum hrp data).length = 6 := by
  unfold bech32Checksum
  rfl

theorem bech32Encode_eq (hrp : String) (data : List Nat) (h : ∀ v ∈ data, v < 32) :
    bech32Encode hrp data = some (hrp ++ "1" ++ String.mk
      ((data ++ bech32Checksum (strBytes hrp) data).map fun v => bech32Charset.getD v 'q')) := by
  unfold bech32Encode bech32ToChars
  have hall : (data ++ bech32Checksum (strBytes hrp) data).all (· < 32) = true := by
    rw [List.all_eq_true]
    intro v hv
    rcases List.mem_append.mp hv with h1 | h2
    · simpa using h v h1
    · simpa using bech32Checksum_all_lt _ _ v h2
  rw [if_pos hall]

theorem bech32CharVal_getD (v : Nat) (hv : v < 32) :
    bech32CharVal (bech32Charset.getD v 'q') = some v := by
  unfold bech32CharVal bech32Charset
  interval_cases v <;> decide

theorem mapM_bech32CharVal (vs : List Nat) (h : ∀ v ∈ vs, v < 32) :
    (vs.map fun v => bech32Charset.getD v 'q').mapM bech32CharVal = some vs := by
  induction vs with
  | nil => rfl
  | cons v vs ih =>
    rw [List.map_cons, List.mapM_cons, bech32CharVal_getD v (h v (List.mem_cons_self _ _)),
      ih (fun x hx => h x (List.mem_cons_of_mem _ hx))]
    rfl

theorem parseTLV_nil (acc : NeventFields) : parseTLV [] acc = some acc := by
  simp [parseTLV]

theorem parseTLV_field0 (v rest : List Nat) (acc : NeventFields) (hv : v.length < 256) :
    parseTLV (0 :: v.length % 256 :: (v ++ rest)) acc
      = parseTLV rest { acc with eventID := some v } := by
  rw [Nat.mod_eq_of_lt hv, parseTLV]
  rw [if_neg (by simp only [List.length_append]; omega)]
  simp only [List.take_left, List.drop_left]
  norm_num

theorem parseTLV_field1 (v rest : List Nat) (acc : NeventFields) (hv : v.length < 256) :
    parseTLV (1 :: v.length % 256 :: (v ++ rest)) acc
      = parseTLV rest { acc with relay := some v } := by
  rw [Nat.mod_eq_of_lt hv, parseTLV]
  rw [if_neg (by simp only [List.length_append]; omega)]
  simp only [List.take_left, List.drop_left]
  norm_num

theorem parseTLV_field2 (v rest : List Nat) (acc : NeventFields) (hv : v.length < 256) :
    parseTLV (2 :: v.length % 256 :: (v ++ rest)) acc
      = parseTLV rest { acc with author := some v } := by
  rw [Nat.mod_eq_of_lt hv, parseTLV]
  rw [if_neg (by simp only [List.length_append]; omega)]
  simp only [List.take_left, List.drop_left]
  norm_num

theorem parseTLV_field3 (v rest : List Nat) (acc : NeventFields) (hv : v.length < 256) :
    parseTLV (3 :: v.length % 256 :: (v ++ rest)) acc
      = parseTLV rest { acc with kind := some (beBytesToNat v) } := by
  rw [Nat.mod_eq_of_lt hv, parseTLV]
  rw [if_neg (by simp only [List.length_append]; omega)]
  simp only [List.take_left, List.drop_left]
  norm_num

theorem parseTLV_opt1 (c : Prop) [Decidable c] (v R : List Nat) (acc : NeventFields)
    (hv : v.length < 256) :
    parseTLV ((if c then [1, v.length % 256] ++ v else []) ++ R) acc
      = parseTLV R (if c then { acc with relay := some v } else acc) := by
  by_cases hc : c
  · rw [if_pos hc, if_pos hc]
    have hshape : ([1, v.length % 256] ++ v) ++ R = 1 :: v.length % 256 :: (v ++ R) := by
      simp
    rw [hshape, parseTLV_field1 v R acc hv]
  · rw [if_neg hc, if_neg hc, List.nil_append]

theorem parseTLV_opt2 (c : Prop) [Decidable c] (v R : List Nat) (acc : NeventFields)
    (hv : v.length < 256) :
    parseTLV ((if c then [2, v.length % 256] ++ v else []) ++ R) acc
      = parseTLV R (if c then { acc with author := some v } else acc) := by
  by_cases hc : c
  · rw [if_pos hc, if_pos hc]
    have hshape : ([2, v.length % 256] ++ v) ++ R = 2 :: v.length % 256 :: (v ++ R) := by
      simp
    rw [hshape, parseTLV_field2 v R acc hv]
  · rw [if_neg hc, if_neg hc, List.nil_append]

theorem parseTLV_opt3_end (c : Prop) [Decidable c] (kb : List Nat) (acc : NeventFields)
    (hkb : kb.length < 256) :
    parseTLV (if c then [3, kb.length % 256] ++ kb else []) acc
      = some (if c then { acc with kind := some (beBytesToNat kb) } else acc) := by
  by_cases hc : c
  · rw [if_pos hc, if_pos hc]
    have hshape : [3, kb.length % 256] ++ kb = 3 :: kb.length % 256 :: (kb ++ []) := by
      simp
    rw [hshape, parseTLV_field3 kb [] acc hkb, parseTLV_nil]
  · rw [if_neg hc, if_neg hc, parseTLV_nil]

theorem neventTLV_eq (eventID authorPubkey : String) (relayBytes : List Nat) (kind : Int)
    (idBytes aBytes : List Nat)
    (hid : hexToBytes eventID = some idBytes)
    (hauthor : hexToBytes authorPubkey = some aBytes) :
    neventTLV eventID relayBytes authorPubkey kind
      = some (([0, idBytes.length % 256] ++ idBytes)
          ++ ((if relayBytes ≠ [] then [1, relayBytes.length % 256] ++ relayBytes else [])
          ++ ((if authorPubkey ≠ "" then [2, aBytes.length % 256] ++ aBytes else [])
          ++ (if kind > 0 then
                [3, (beBytes 4 ((kind % (2 ^ 32 : Int)).toNat)).length % 256]
                  ++ beBytes 4 ((kind % (2 ^ 32 : Int)).toNat)
              else [])))) := by
  unfold neventTLV
  rw [hid]
  by_cases ha : authorPubkey = ""
  · have hcond : ¬(authorPubkey ≠ "") := by simp [ha]
    rw [if_neg hcond]
    rw [if_neg hcond]
    simp only [Option.some.injEq, List.append_nil, List.nil_append, List.append_assoc]
  · rw [if_pos ha, hauthor]
    rw [if_pos ha]
    simp only [Option.map_some', Option.some.injEq, List.append_assoc]

theorem neventTLV_explicit_lt (idBytes relayBytes aBytes : List Nat) (kind : Int)
    (hidb : ∀ b ∈ idBytes, b < 256) (hrb : ∀ b ∈ relayBytes, b < 256)
    (hab : ∀ b ∈ aBytes, b < 256)
    (c1 c2 c3 : Prop) [Decidable c1] [Decidable c2] [Decidable c3] :
    ∀ b ∈ (([0, idBytes.length % 256] ++ idBytes)
        ++ ((if c1 then [1, relayBytes.length % 256] ++ relayBytes else [])
        ++ ((if c2 then [2, aBytes.length % 256] ++ aBytes else [])
        ++ (if c3 then
              [3, (beBytes 4 ((kind % (2 ^ 32 : Int)).toNat)).length % 256]
                ++ beBytes 4 ((kind % (2 ^ 32 : Int)).toNat)
            else [])))), b < 256 := by
  intro b hb
  rcases List.mem_append.mp hb with h0 | hrest
  · rcases List.mem_append.mp h0 with hh | hid2
    · rcases List.mem_cons.mp hh with rfl | hh2
      · omega
      · rcases List.mem_cons.mp hh2 with rfl | hh3
        · exact Nat.mod_lt _ (by omega)
        · simp at hh3
    · exact hidb b hid2
  · rcases List.mem_append.mp hrest with h1 | h23
    · by_cases hc1 : c1
      · rw [if_pos hc1] at h1
        rcases List.mem_append.mp h1 with hh | hr2
        · rcases List.mem_cons.mp hh with rfl | hh2
          · omega
          · rcases List.mem_cons.mp hh2 with rfl | hh3
            · exact Nat.mod_lt _ (by omega)
            · simp at hh3
        · exact hrb b hr2
      · rw [if_neg hc1] at h1
        simp at h1
    · rcases List.mem_append.mp h23 with h2 | h3
      · by_cases hc2 : c2
        · rw [if_pos hc2] at h2
          rcases List.mem_append.mp h2 with hh | ha2
          · rcases List.mem_cons.mp hh with rfl | hh2
            · omega
            · rcases List.mem_cons.mp hh2 with rfl | hh3
              · exact Nat.mod_lt _ (by omega)
              · simp at hh3
          · exact hab b ha2
        · rw [if_neg hc2] at h2
          simp at h2
      · by_cases hc3 : c3
        · rw [if_pos hc3] at h3
          rcases List.mem_append.mp h3 with hh | hk2
          · rcases List.mem_cons.mp hh with rfl | hh2
            · omega
            · rcases List.mem_cons.mp hh2 with rfl | hh3
              · exact Nat.mod_lt _ (by omega)
              · simp at hh3
          · exact beBytes_all_lt _ _ b hk2
        · rw [if_neg hc3] at h3
          simp at h3

theorem hrpExpand_nevent_lt : ∀ v ∈ bech32HrpExpand (strBytes "nevent"), v < 2 ^ 30 := by
  decide

/-- C2: for every valid identity / endpoint / author / category
combination, the compact identifier encoder succeeds, its output starts
with the configured `nevent` prefix, and the (spec-modelled) decoder
returns exactly the original fields. -/
theorem nevent_roundtrip (eventID authorPubkey : String) (relayBytes : List Nat) (kind : Int)
    (idBytes aBytes : List Nat)
    (hid : hexToBytes eventID = some idBytes) (hidlen : idBytes.length = 32)
    (hrelay : ∀ b ∈ relayBytes, b < 256) (hrellen : relayBytes.length ≤ 255)
    (hauthor : hexToBytes authorPubkey = some aBytes) (halen : aBytes.length ≤ 255)
    (hk0 : 0 ≤ kind) (hk32 : kind < 2 ^ 32) :
    ∃ s, encodeEventIDToNevent eventID relayBytes authorPubkey kind = some s
      ∧ (∃ rest, s = "nevent" ++ rest)
      ∧ decodeNevent s = some ⟨some idBytes,
          (if relayBytes ≠ [] then some relayBytes else none),
          (if authorPubkey ≠ "" then some aBytes else none),
          (if kind > 0 then some kind.toNat else none)⟩ := by
  have hidb : ∀ b ∈ idBytes, b < 256 := (hexToBytes_sound _ _ hid).1
  have hab : ∀ b ∈ aBytes, b < 256 := (hexToBytes_sound _ _ hauthor).1
  set kb := beBytes 4 ((kind % (2 ^ 32 : Int)).toNat) with hkb_def
  set tlv := ([0, idBytes.length % 256] ++ idBytes)
      ++ ((if relayBytes ≠ [] then [1, relayBytes.length % 256] ++ relayBytes else [])
      ++ ((if authorPubkey ≠ "" then [2, aBytes.length % 256] ++ aBytes else [])
      ++ (if kind > 0 then [3, kb.length % 256] ++ kb else []))) with htlv_def
  have htlv : neventTLV eventID relayBytes authorPubkey kind = some tlv :=
    neventTLV_eq eventID authorPubkey relayBytes kind idBytes aBytes hid hauthor
  have htlv_lt : ∀ b ∈ tlv, b < 256 := by
    rw [htlv_def, hkb_def]
    exact neventTLV_explicit_lt idBytes relayBytes aBytes kind hidb hrelay hab _ _ _
  set data5 := convertBits8to5 tlv with hdata5_def
  have hdata5_lt : ∀ v ∈ data5, v < 32 := convertBits8to5_lt tlv
  set cs := bech32Checksum (strBytes "nevent") data5 with hcs_def
  set chars := ((data5 ++ cs).map fun v => bech32Charset.getD v 'q') with hchars_def
  have henc : encodeEventIDToNevent eventID relayBytes authorPubkey kind
      = some ("nevent" ++ "1" ++ String.mk chars) := by
    unfold encodeEventIDToNevent
    rw [htlv]
    exact bech32Encode_eq "nevent" data5 hdata5_lt
  have hcomb_lt : ∀ v ∈ data5 ++ cs, v < 32 := by
    intro v hv
    rcases List.mem_append.mp hv with h1 | h2
    · exact hdata5_lt v h1
    · exact bech32Checksum_all_lt _ _ v h2
  have hdata : ("nevent" ++ "1" ++ String.mk chars).data
      = 'n' :: 'e' :: 'v' :: 'e' :: 'n' :: 't' :: '1' :: chars := by
    simp [String.data_append]
  have hmapm : chars.mapM bech32CharVal = some (data5 ++ cs) := by
    rw [hchars_def]
    exact mapM_bech32CharVal _ hcomb_lt
  have hlen6 : ¬((data5 ++ cs).length < 6) := by
    rw [List.length_append, hcs_def, bech32Checksum_length]
    omega
  have hpoly : bech32Polymod (bech32HrpExpand (strBytes "nevent") ++ (data5 ++ cs)) = 1 := by
    rw [hcs_def]
    exact bech32_checksum_verify (strBytes "nevent") data5 hrpExpand_nevent_lt
      (fun v hv => lt_trans (hdata5_lt v hv) (by norm_num))
  have htake : (data5 ++ cs).take ((data5 ++ cs).length - 6) = data5 := by
    have hl : (data5 ++ cs).length - 6 = data5.length := by
      rw [List.length_append, hcs_def, bech32Checksum_length]
      omega
    rw [hl, List.take_left]
  have hregroup : regroup5to8 data5 = tlv := convertBits_roundtrip tlv htlv_lt
  have hparse : parseTLV tlv ⟨none, none, none, none⟩
      = some ⟨some idBytes,
          (if relayBytes ≠ [] then some relayBytes else none),
          (if authorPubkey ≠ "" then some aBytes else none),
          (if kind > 0 then some kind.toNat else none)⟩ := by
    have hshape0 : tlv = 0 :: idBytes.length % 256
        :: (idBytes ++ ((if relayBytes ≠ [] then [1, relayBytes.length % 256] ++ relayBytes else [])
          ++ ((if authorPubkey ≠ "" then [2, aBytes.length % 256] ++ aBytes else [])
          ++ (if kind > 0 then [3, kb.length % 256] ++ kb else [])))) := by
      rw [htlv_def]
      simp
    rw [hshape0, parseTLV_field0 _ _ _ (by omega),
      parseTLV_opt1 _ _ _ _ (by omega),
      parseTLV_opt2 _ _ _ _ (by omega),
      parseTLV_opt3_end _ _ _ (by rw [hkb_def, beBytes_length]; omega)]
    have hbk : beBytesToNat kb = kind.toNat := by
      rw [hkb_def]
      have hkmod : kind % (2 ^ 32 : Int) = kind := Int.emod_eq_of_lt hk0 hk32
      rw [hkmod]
      exact beBytesToNat_beBytes 4 _ (by norm_num; omega)
    by_cases hr' : relayBytes ≠ [] <;> by_cases ha' : authorPubkey ≠ "" <;>
      by_cases hkp : kind > 0 <;> simp [hr', ha', hkp, hbk]
  refine ⟨_, henc, ⟨"1" ++ String.mk chars, ?_⟩, ?_⟩
  · apply String.ext
    simp [String.data_append]
  · unfold decodeNevent
    rw [hdata]
    simp only [hmapm]
    rw [if_neg hlen6]
    rw [if_neg (by rw [hpoly]; exact fun hne => hne rfl)]
    rw [htake, hregroup, hparse]
    simp

theorem nevent_roundtrip_witness :
    hexToBytes (String.mk (List.replicate 64 '0')) = some (List.replicate 32 0)
    ∧ (List.replicate 32 (0 : Nat)).length = 32
    ∧ (∃ s, encodeEventIDToNevent (String.mk (List.replicate 64 '0')) [] "" 0 = some s
        ∧ (∃ rest, s = "nevent" ++ rest)
        ∧ decodeNevent s = some ⟨some (List.replicate 32 0),
            (if ([] : List Nat) ≠ [] then some ([] : List Nat) else none),
            (if "" ≠ "" then some ([] : List Nat) else none),
            (if (0 : Int) > 0 then some (0 : Int).toNat else none)⟩) :=
  ⟨by decide, by decide,
    nevent_roundtrip (String.mk (List.replicate 64 '0')) "" [] 0
      (List.replicate 32 0) [] (by decide) (by decide) (by decide) (by decide)
      (by decide) (by decide) (by decide) (by decide)⟩

/-- The 5-bit groups produced by the 8-to-5 regrouping carry exactly the
input byte stream's bits followed by the trailing zero padding of the
final group. -/
theorem convertBits8to5_bits (data : List Nat) :
    ((convertBits8to5 data).map (natToBits 5)).flatten
      = bytesToBits data ++ List.replicate ((5 - (8 * data.length) % 5) % 5) false := by
  unfold convertBits8to5
  rw [List.map_map]
  have hmap : ((chunksOf 5 (bytesToBits data)).map
      (natToBits 5 ∘ fun c => bitsToNat (c ++ List.replicate (5 - c.length) false)))
      = (chunksOf 5 (bytesToBits data)).map (fun c => c ++ List.replicate (5 - c.length) false) := by
    apply List.map_congr_left
    intro c hc
    have hlen := chunksOf_length_le 5 (by omega) _ c hc
    have hl : (c ++ List.replicate (5 - c.length) false).length = 5 := by
      simp only [List.length_append, List.length_replicate]
      omega
    have hrt := natToBits_bitsToNat (c ++ List.replicate (5 - c.length) false)
    rw [hl] at hrt
    exact hrt
  rw [hmap, chunksOf_padded_flatten 5 (by omega), bytesToBits_length]

/-- C5: the encoder serializes each present field as
`[type byte][length byte][value]` in the fixed order 0, 1, 2, 3 (with the
category as a 4-byte big-endian field only when positive), and feeds the
concatenation through the 8-bit to 5-bit regrouping whose output bit
stream is the TLV byte stream padded with trailing zero bits. -/
theorem nevent_encoder_structure (eventID authorPubkey : String) (relayBytes : List Nat)
    (kind : Int) (idBytes aBytes : List Nat)
    (hid : hexToBytes eventID = some idBytes)
    (hauthor : hexToBytes authorPubkey = some aBytes) :
    ∃ tlv, neventTLV eventID relayBytes authorPubkey kind = some tlv
      ∧ tlv = ([0, idBytes.length % 256] ++ idBytes)
          ++ ((if relayBytes ≠ [] then [1, relayBytes.length % 256] ++ relayBytes else [])
          ++ ((if authorPubkey ≠ "" then [2, aBytes.length % 256] ++ aBytes else [])
          ++ (if kind > 0 then [3, 4] ++ beBytes 4 ((kind % (2 ^ 32 : Int)).toNat) else [])))
      ∧ encodeEventIDToNevent eventID relayBytes authorPubkey kind
          = bech32Encode "nevent" (convertBits8to5 tlv)
      ∧ ((convertBits8to5 tlv).map (natToBits 5)).flatten
          = bytesToBits tlv ++ List.replicate ((5 - (8 * tlv.length) % 5) % 5) false
      ∧ (∀ v ∈ convertBits8to5 tlv, v < 32) := by
  have htlv := neventTLV_eq eventID authorPubkey relayBytes kind idBytes aBytes hid hauthor
  have hlb : (beBytes 4 ((kind % (2 ^ 32 : Int)).toNat)).length % 256 = 4 := by
    rw [beBytes_length]
  rw [hlb] at htlv
  refine ⟨_, htlv, rfl, ?_, convertBits8to5_bits _, convertBits8to5_lt _⟩
  unfold encodeEventIDToNevent
  rw [htlv]

theorem nevent_encoder_structure_witness :
    hexToBytes (String.mk (List.replicate 64 '1')) = some (List.replicate 32 17)
    ∧ (∃ tlv, neventTLV (String.mk (List.replicate 64 '1')) [] "" 1 = some tlv
      ∧ tlv = ([0, (List.replicate 32 (17 : Nat)).length % 256] ++ List.replicate 32 17)
          ++ ((if ([] : List Nat) ≠ [] then [1, ([] : List Nat).length % 256] ++ [] else [])
          ++ ((if "" ≠ "" then [2, ([] : List Nat).length % 256] ++ [] else [])
          ++ (if (1 : Int) > 0 then [3, 4] ++ beBytes 4 (((1 : Int) % (2 ^ 32 : Int)).toNat) else [])))
      ∧ encodeEventIDToNevent (String.mk (List.replicate 64 '1')) [] "" 1
          = bech32Encode "nevent" (convertBits8to5 tlv)
      ∧ ((convertBits8to5 tlv).map (natToBits 5)).flatten
          = bytesToBits tlv ++ List.replicate ((5 - (8 * tlv.length) % 5) % 5) false
      ∧ (∀ v ∈ convertBits8to5 tlv, v < 32)) :=
  ⟨by decide,
    nevent_encoder_structure (String.mk (List.replicate 64 '1')) "" [] 1
      (List.replicate 32 17) [] (by decide) (by decide)⟩

/-- C10 (counterexample): for a 256-byte event id (512 hex characters)
encoding still succeeds, but the type-0 length byte is `byte(256) = 0`,
not the actual byte count 256 — `byte(len)` wraps modulo 256. -/
theorem nevent_length_byte_wraps :
    hexToBytes (String.mk (List.replicate 512 '0')) = some (List.replicate 256 0)
    ∧ neventTLV (String.mk (List.replicate 512 '0')) [] "" 0
        = some (0 :: 0 :: List.replicate 256 0)
    ∧ (List.replicate 256 (0 : Nat)).length = 256
    ∧ (encodeEventIDToNevent (String.mk (List.replicate 512 '0')) [] "" 0).isSome = true := by
  have h1 : hexToBytes (String.mk (List.replicate 512 '0')) = some (List.replicate 256 0) := by
    decide
  have h2 : neventTLV (String.mk (List.replicate 512 '0')) [] "" 0
      = some (0 :: 0 :: List.replicate 256 0) := by decide
  refine ⟨h1, h2, by decide, ?_⟩
  unfold encodeEventIDToNevent
  simp only [h2]
  rw [bech32Encode_eq _ _ (convertBits8to5_lt _)]
  rfl

/-- C10 (amended): the encoder enforces no identity length — any string
of hex digit pairs is accepted, encoding succeeds, and the type-0 field's
length byte is the decoded byte count reduced modulo 256 (equal to the
actual count whenever it is below 256). -/
theorem nevent_no_length_enforcement (eventID authorPubkey : String) (relayBytes : List Nat)
    (kind : Int) (idBytes aBytes : List Nat)
    (hid : hexToBytes eventID = some idBytes)
    (hauthor : hexToBytes authorPubkey = some aBytes) :
    (encodeEventIDToNevent eventID relayBytes authorPubkey kind).isSome = true
    ∧ ∃ tlv, neventTLV eventID relayBytes authorPubkey kind = some tlv
        ∧ tlv.take (2 + idBytes.length) = 0 :: idBytes.length % 256 :: idBytes := by
  have htlv := neventTLV_eq eventID authorPubkey relayBytes kind idBytes aBytes hid hauthor
  constructor
  · unfold encodeEventIDToNevent
    simp only [htlv]
    rw [bech32Encode_eq _ _ (convertBits8to5_lt _)]
    rfl
  · refine ⟨_, htlv, ?_⟩
    rw [List.take_left' (by simp; omega)]
    simp

theorem nevent_no_length_enforcement_witness :
    hexToBytes "" = some []
    ∧ ((encodeEventIDToNevent "" [] "" 0).isSome = true
      ∧ ∃ tlv, neventTLV "" [] "" 0 = some tlv
          ∧ tlv.take (2 + ([] : List Nat).length)
              = 0 :: ([] : List Nat).length % 256 :: ([] : List Nat)) :=
  ⟨by decide, nevent_no_length_enforcement "" "" [] 0 [] [] (by decide) (by decide)⟩

end NostrEth
